import Mathlib

/-!
Verification development for the Shumway GFX rendering core
(src/gfx/frame.ts and the WebGL backend file).

The development shallowly embeds the TypeScript sources:

* JS numbers are modelled as exact rationals (`ℚ`) or integers; the
  claims under study are algebraic and do not depend on floating-point
  rounding.
* The externally supplied geometry value types (`Geometry.Matrix`,
  `Geometry.Rectangle`, `ColorMatrix`) are modelled as plain records with
  the compose/invert/contains operations the core calls on them; the
  composition order follows the specification text (child-then-parent).
* The mutable `Frame` tree is modelled as a fixed parent map over `Fin n`
  together with a state function assigning each frame id its record of
  fields; mutating methods become state transformers.
* Fallible operations (capability faults, assertion failures) return
  `Option`/explicit failure values.
-/

set_option maxHeartbeats 1000000
set_option linter.unusedVariables false

namespace ShumwayGFX

/-- Affine 2D matrix, value model of the external `Geometry.Matrix` type.
`transformPoint (x, y) = (a*x + c*y + tx, b*x + d*y + ty)`. -/
structure M2 where
  a : ℚ
  b : ℚ
  c : ℚ
  d : ℚ
  tx : ℚ
  ty : ℚ
deriving DecidableEq, Repr

/-- Identity matrix, `Matrix.createIdentity()`. -/
def M2.idm : M2 := ⟨1, 0, 0, 1, 0, 0⟩

/-- Composition `M2.mul m k` applies `k` first and then `m`
(a point in the inner space is transformed by `k`, then by `m`). -/
def M2.mul (m k : M2) : M2 :=
  ⟨m.a * k.a + m.c * k.b,
   m.b * k.a + m.d * k.b,
   m.a * k.c + m.c * k.d,
   m.b * k.c + m.d * k.d,
   m.a * k.tx + m.c * k.ty + m.tx,
   m.b * k.tx + m.d * k.ty + m.ty⟩

/-- `m.preMultiply(k)` per the specification: the result applies the child
matrix `k` first and then the accumulated matrix `m`. -/
def M2.preMul (m k : M2) : M2 := M2.mul m k

theorem M2.idm_mul (m : M2) : M2.mul M2.idm m = m := by
  cases m; simp [M2.mul, M2.idm]

theorem M2.mul_idm (m : M2) : M2.mul m M2.idm = m := by
  cases m; simp [M2.mul, M2.idm]

/-- `matrix.transformPoint(point)`. -/
def M2.transformPoint (m : M2) (p : ℚ × ℚ) : ℚ × ℚ :=
  (m.a * p.1 + m.c * p.2 + m.tx, m.b * p.1 + m.d * p.2 + m.ty)

def M2.det (m : M2) : ℚ := m.a * m.d - m.b * m.c

/-- `matrix.inverse(target)`: the affine inverse. On a degenerate matrix the
JS source would produce non-finite entries; the model returns the input
unchanged there (no claim exercises that case). -/
def M2.inverse (m : M2) : M2 :=
  if m.det = 0 then m
  else
    ⟨m.d / m.det, -m.b / m.det, -m.c / m.det, m.a / m.det,
     (m.c * m.ty - m.d * m.tx) / m.det, (m.b * m.tx - m.a * m.ty) / m.det⟩

/-- Rectangle value model of the external `Geometry.Rectangle`. -/
structure Rect where
  x : ℚ
  y : ℚ
  w : ℚ
  h : ℚ
deriving DecidableEq, Repr

def Rect.isEmptyR (r : Rect) : Bool := decide (r.w ≤ 0) || decide (r.h ≤ 0)

/-- `r.contains(s)`: the rectangle `s` lies fully inside `r`. -/
def Rect.containsRect (r s : Rect) : Bool :=
  decide (r.x ≤ s.x) && decide (r.y ≤ s.y) &&
  decide (s.x + s.w ≤ r.x + r.w) && decide (s.y + s.h ≤ r.y + r.h)

/-- `r.containsPoint(p)`. All inputs used in this development are strictly
interior, so the boundary convention is immaterial. -/
def Rect.containsPoint (r : Rect) (p : ℚ × ℚ) : Bool :=
  decide (r.x ≤ p.1) && decide (p.1 < r.x + r.w) &&
  decide (r.y ≤ p.2) && decide (p.2 < r.y + r.h)

def Rect.scaleR (r : Rect) (sx sy : ℚ) : Rect := ⟨r.x * sx, r.y * sy, r.w * sx, r.h * sy⟩

def Rect.offsetR (r : Rect) (dx dy : ℚ) : Rect := ⟨r.x + dx, r.y + dy, r.w, r.h⟩

/-- `r.union(s)` as a bounding box, with the empty rectangle as unit. -/
def Rect.unionR (r s : Rect) : Rect :=
  if r.isEmptyR then s
  else if s.isEmptyR then r
  else
    ⟨min r.x s.x, min r.y s.y,
     max (r.x + r.w) (s.x + s.w) - min r.x s.x,
     max (r.y + r.h) (s.y + s.h) - min r.y s.y⟩

/-- The `FrameFlags` bitset, one Bool field per bit. -/
structure Flags where
  dirty : Bool := false
  isMask : Bool := false
  ignoreMask : Bool := false
  ignoreQuery : Bool := false
  invalidBounds : Bool := false
  invalidConcatenatedMatrix : Bool := false
  invalidInvertedConcatenatedMatrix : Bool := false
  invalidConcatenatedColorMatrix : Bool := false
  invalidPaint : Bool := false
  enterClip : Bool := false
  leaveClip : Bool := false
  visible : Bool := false
  transparent : Bool := false
deriving DecidableEq, Repr

/-- Bitwise OR of two flag sets, `flags |= mask` (`setFlags`). -/
def Flags.or (f g : Flags) : Flags :=
  ⟨f.dirty || g.dirty, f.isMask || g.isMask, f.ignoreMask || g.ignoreMask,
   f.ignoreQuery || g.ignoreQuery, f.invalidBounds || g.invalidBounds,
   f.invalidConcatenatedMatrix || g.invalidConcatenatedMatrix,
   f.invalidInvertedConcatenatedMatrix || g.invalidInvertedConcatenatedMatrix,
   f.invalidConcatenatedColorMatrix || g.invalidConcatenatedColorMatrix,
   f.invalidPaint || g.invalidPaint, f.enterClip || g.enterClip,
   f.leaveClip || g.leaveClip, f.visible || g.visible,
   f.transparent || g.transparent⟩

/-- `flags &= ~mask` (`_removeFlags`). -/
def Flags.andNot (f g : Flags) : Flags :=
  ⟨f.dirty && !g.dirty, f.isMask && !g.isMask, f.ignoreMask && !g.ignoreMask,
   f.ignoreQuery && !g.ignoreQuery, f.invalidBounds && !g.invalidBounds,
   f.invalidConcatenatedMatrix && !g.invalidConcatenatedMatrix,
   f.invalidInvertedConcatenatedMatrix && !g.invalidInvertedConcatenatedMatrix,
   f.invalidConcatenatedColorMatrix && !g.invalidConcatenatedColorMatrix,
   f.invalidPaint && !g.invalidPaint, f.enterClip && !g.enterClip,
   f.leaveClip && !g.leaveClip, f.visible && !g.visible,
   f.transparent && !g.transparent⟩

/-- `hasFlags(mask)`: `(flags & mask) === mask`. -/
def Flags.has (f g : Flags) : Bool :=
  (!g.dirty || f.dirty) && (!g.isMask || f.isMask) && (!g.ignoreMask || f.ignoreMask) &&
  (!g.ignoreQuery || f.ignoreQuery) && (!g.invalidBounds || f.invalidBounds) &&
  (!g.invalidConcatenatedMatrix || f.invalidConcatenatedMatrix) &&
  (!g.invalidInvertedConcatenatedMatrix || f.invalidInvertedConcatenatedMatrix) &&
  (!g.invalidConcatenatedColorMatrix || f.invalidConcatenatedColorMatrix) &&
  (!g.invalidPaint || f.invalidPaint) && (!g.enterClip || f.enterClip) &&
  (!g.leaveClip || f.leaveClip) && (!g.visible || f.visible) &&
  (!g.transparent || f.transparent)

def Flags.empty : Flags := {}

/-- Mask `FrameFlags.Dirty`. -/
def dirtyMask : Flags := { dirty := true }

/-- Mask `FrameFlags.IsMask`. -/
def isMaskMask : Flags := { isMask := true }

/-- Mask `FrameFlags.InvalidConcatenatedMatrix`. -/
def maskICM : Flags := { invalidConcatenatedMatrix := true }

/-- Mask `FrameFlags.InvalidConcatenatedMatrix | FrameFlags.InvalidInvertedConcatenatedMatrix`. -/
def maskICMandIICM : Flags :=
  { invalidConcatenatedMatrix := true, invalidInvertedConcatenatedMatrix := true }

/-- Mask `FrameFlags.InvalidBounds`. -/
def maskInvalidBounds : Flags := { invalidBounds := true }

/-- Mask `FrameFlags.InvalidPaint`. -/
def maskInvalidPaint : Flags := { invalidPaint := true }

/-- Mask `FrameFlags.InvalidConcatenatedColorMatrix`. -/
def maskICC : Flags := { invalidConcatenatedColorMatrix := true }

theorem Flags.has_maskICM (f : Flags) :
    Flags.has f maskICM = f.invalidConcatenatedMatrix := by
  simp [Flags.has, maskICM]

/-- The `FrameCapabilityFlags` bitset. -/
structure Caps where
  allowMatrixWrite : Bool := false
  allowColorMatrixWrite : Bool := false
  allowBlendModeWrite : Bool := false
  allowFiltersWrite : Bool := false
  allowMaskWrite : Bool := false
  allowChildrenWrite : Bool := false
  allowClipWrite : Bool := false
deriving DecidableEq, Repr

/-- `FrameCapabilityFlags.AllowAllWrite`. -/
def Caps.allowAllWrite : Caps := ⟨true, true, true, true, true, true, true⟩

/-- Local fields of one `Frame` object.  The external `ColorMatrix` and
`Filter` value types are opaque to every claim under study and are modelled
as plain values (`ℚ` respectively `ℕ`) with copy semantics. -/
structure FrameSt (n : ℕ) where
  matrix : M2
  concatenatedMatrix : M2
  invertedConcatenatedMatrix : Option M2
  colorMatrix : ℚ
  concatenatedColorMatrix : ℚ
  blendMode : ℤ
  filters : List ℕ
  mask : Option (Fin n)
  clip : ℤ
  prevAABB : Option Rect
  flags : Flags
  smoothing : ℕ
  pixelSnapping : ℕ
  capability : Caps
deriving DecidableEq, Repr

/-- Flags installed by the `Frame` constructor. -/
def initFlags : Flags :=
  { visible := true, invalidPaint := true, invalidBounds := true,
    invalidConcatenatedMatrix := true, invalidInvertedConcatenatedMatrix := true,
    invalidConcatenatedColorMatrix := true }

/-- A freshly constructed `Frame` (the constructor body). -/
def initFrame (n : ℕ) : FrameSt n :=
  { matrix := M2.idm
    concatenatedMatrix := M2.idm
    invertedConcatenatedMatrix := none
    colorMatrix := 0
    concatenatedColorMatrix := 0
    blendMode := 1
    filters := []
    mask := none
    clip := -1
    prevAABB := none
    flags := initFlags
    smoothing := 0
    pixelSnapping := 0
    capability := Caps.allowAllWrite }

/-- The shape of a frame tree: a parent map over frame ids `Fin n`,
acyclic by virtue of a rank function that strictly decreases along the
parent edge (every frame tree satisfies this with rank = depth). -/
structure FrameTree (n : ℕ) where
  parent : Fin n → Option (Fin n)
  rank : Fin n → ℕ
  parentRank : ∀ i j, parent i = some j → rank j < rank i

/-- Mutable per-frame state of the whole tree. -/
def St (n : ℕ) : Type := Fin n → FrameSt n

/-- Pointwise state update of a single frame. -/
def updSt {n : ℕ} (st : St n) (i : Fin n) (d : FrameSt n) : St n :=
  fun j => if j = i then d else st j

/-- The whole tree freshly constructed. -/
def initSt (n : ℕ) : St n := fun _ => initFrame n

variable {n : ℕ}

/-- The chain of ancestors of `i` including `i` itself, child first
(the path walked by the upward loops in the source). -/
def chainFrom (t : FrameTree n) (i : Fin n) : List (Fin n) :=
  i :: (match h : t.parent i with
        | none => []
        | some p => chainFrom t p)
termination_by t.rank i
decreasing_by exact t.parentRank i p h

theorem chainFrom_root (t : FrameTree n) (i : Fin n) (h : t.parent i = none) :
    chainFrom t i = [i] := by
  unfold chainFrom
  simp only [List.cons.injEq, true_and]
  split
  · rfl
  · next p hp => rw [h] at hp; cases hp

theorem chainFrom_step (t : FrameTree n) (i p : Fin n) (h : t.parent i = some p) :
    chainFrom t i = i :: chainFrom t p := by
  conv_lhs => unfold chainFrom
  simp only [List.cons.injEq, true_and]
  split
  · next hp => rw [h] at hp; cases hp
  · next q hq =>
      rw [h] at hq
      cases hq
      rfl

theorem self_mem_chainFrom (t : FrameTree n) (i : Fin n) : i ∈ chainFrom t i := by
  unfold chainFrom
  exact List.mem_cons_self _ _

theorem chainFrom_rank_le (t : FrameTree n) :
    ∀ (i : Fin n), ∀ a ∈ chainFrom t i, t.rank a ≤ t.rank i := by
  intro i
  cases h : t.parent i with
  | none =>
      rw [chainFrom_root t i h]
      intro a ha
      simp at ha
      subst ha
      exact le_refl _
  | some p =>
      rw [chainFrom_step t i p h]
      intro a ha
      rcases List.mem_cons.mp ha with rfl | ha
      · exact le_refl _
      · exact le_of_lt (lt_of_le_of_lt (chainFrom_rank_le t p a ha) (t.parentRank i p h))
termination_by i => t.rank i
decreasing_by exact t.parentRank i p h

/-- The mathematically true concatenated matrix of a frame: the composition
of the local matrices of every ancestor from the root down to the frame,
each matrix pre-multiplied into the accumulated ancestor product. -/
def trueConcat (t : FrameTree n) (st : St n) (i : Fin n) : M2 :=
  ((chainFrom t i).reverse).foldl (fun m j => M2.mul m ((st j).matrix)) M2.idm

theorem trueConcat_root (t : FrameTree n) (st : St n) (i : Fin n)
    (h : t.parent i = none) : trueConcat t st i = (st i).matrix := by
  rw [trueConcat, chainFrom_root t i h]
  simp [M2.idm_mul]

theorem trueConcat_step (t : FrameTree n) (st : St n) (i p : Fin n)
    (h : t.parent i = some p) :
    trueConcat t st i = M2.mul (trueConcat t st p) ((st i).matrix) := by
  rw [trueConcat, trueConcat, chainFrom_step t i p h]
  simp [List.foldl_append]

theorem foldl_matrix_congr (st st2 : St n) :
    ∀ (l : List (Fin n)) (m : M2), (∀ j ∈ l, (st2 j).matrix = (st j).matrix) →
      l.foldl (fun m j => M2.mul m ((st2 j).matrix)) m =
      l.foldl (fun m j => M2.mul m ((st j).matrix)) m := by
  intro l
  induction l with
  | nil => intro m _; rfl
  | cons a l ih =>
      intro m h
      simp only [List.foldl_cons]
      rw [h a (List.mem_cons_self _ _)]
      exact ih _ (fun j hj => h j (List.mem_cons_of_mem _ hj))

theorem trueConcat_congr (t : FrameTree n) (st st2 : St n) (i : Fin n)
    (h : ∀ j ∈ chainFrom t i, (st2 j).matrix = (st j).matrix) :
    trueConcat t st2 i = trueConcat t st i := by
  rw [trueConcat, trueConcat]
  exact foldl_matrix_congr st st2 _ _ (fun j hj => h j (List.mem_reverse.mp hj))

/-- `Frame._findClosestAncestor(flags, on)`: the nearest ancestor (or self)
whose flags tested through `hasFlags` equal `on`. -/
def findClosestAncestor (t : FrameTree n) (st : St n) (mask : Flags) (onv : Bool)
    (i : Fin n) : Option (Fin n) :=
  if Flags.has (st i).flags mask = onv then some i
  else
    match h : t.parent i with
    | none => none
    | some p => findClosestAncestor t st mask onv p
termination_by t.rank i
decreasing_by exact t.parentRank i p h

/-- `Frame._getAncestors(node, last)`: the frames from `node` upward,
stopping at (and excluding) `last`. -/
def getAncestors (t : FrameTree n) (i : Fin n) (last : Option (Fin n)) :
    List (Fin n) :=
  if last = some i then []
  else
    i :: (match h : t.parent i with
          | none => []
          | some p => getAncestors t p last)
termination_by t.rank i
decreasing_by exact t.parentRank i p h

/-- The root-downward recomputation loop in `Frame.getConcatenatedMatrix`:
the path is processed from its last element (root-most) to its first,
pre-multiplying each local matrix into the accumulated matrix `m`, writing
the result into the cache and clearing `InvalidConcatenatedMatrix`. -/
def recomputeConcat : List (Fin n) → M2 → St n → (M2 × St n)
  | [], m, st => (m, st)
  | x :: xs, m, st =>
      let r := recomputeConcat xs m st
      let m2 := M2.mul r.1 ((r.2 x).matrix)
      (m2, updSt r.2 x
        { r.2 x with concatenatedMatrix := m2,
                     flags := Flags.andNot (r.2 x).flags maskICM })

/-- `Frame.getConcatenatedMatrix()`: returns the (possibly recomputed)
cached concatenated matrix together with the mutated tree state. -/
def getConcatenatedMatrixM (t : FrameTree n) (st : St n) (i : Fin n) :
    M2 × St n :=
  if (st i).flags.invalidConcatenatedMatrix then
    let anc := findClosestAncestor t st maskICM false i
    let path := getAncestors t i anc
    let m0 := match anc with
              | some a => (st a).concatenatedMatrix
              | none => M2.idm
    let r := recomputeConcat path m0 st
    ((r.2 i).concatenatedMatrix, r.2)
  else
    ((st i).concatenatedMatrix, st)

/-- Modelled from the spec: `_propagateFlagsDown` is overridden in
`FrameContainer` (a class absent from the sources) to recurse over the
children; per the spec a transform change "propagates downward to every
descendant".  Effect: OR the mask into the flags of the frame and of every
frame that has it as an ancestor. -/
def propagateFlagsDown (t : FrameTree n) (st : St n) (i : Fin n) (mask : Flags) :
    St n :=
  fun j =>
    if i ∈ chainFrom t j then { st j with flags := Flags.or (st j).flags mask }
    else st j

/-- `Frame._propagateFlagsUp(flags)`: OR the mask into this frame and its
ancestors, stopping early as soon as a frame already has all mask bits. -/
def propagateFlagsUp (t : FrameTree n) (mask : Flags) (i : Fin n) (st : St n) :
    St n :=
  if Flags.has (st i).flags mask then st
  else
    match h : t.parent i with
    | none => updSt st i { st i with flags := Flags.or (st i).flags mask }
    | some p =>
        propagateFlagsUp t mask p
          (updSt st i { st i with flags := Flags.or (st i).flags mask })
termination_by t.rank i
decreasing_by exact t.parentRank i p h

/-- `Frame._invalidatePosition()`: downward concatenated/inverted-matrix
invalidation, then the parent's bounds invalidation, then the parent
chain's paint invalidation. -/
def invalidatePosition (t : FrameTree n) (st : St n) (i : Fin n) : St n :=
  let st1 := propagateFlagsDown t st i maskICMandIICM
  let st2 := match t.parent i with
             | some p => propagateFlagsUp t maskInvalidBounds p st1
             | none => st1
  match t.parent i with
  | some p => propagateFlagsUp t maskInvalidPaint p st2
  | none => st2

/-- `set x(value)`: capability-checked translation-x mutation.
`checkCapability` faults (throws) on a missing capability, modelled as
`none`. -/
def setXM (t : FrameTree n) (st : St n) (i : Fin n) (v : ℚ) : Option (St n) :=
  if (st i).capability.allowMatrixWrite then
    some (invalidatePosition t
      (updSt st i { st i with matrix := { (st i).matrix with tx := v } }) i)
  else none

/-- `set y(value)`. -/
def setYM (t : FrameTree n) (st : St n) (i : Fin n) (v : ℚ) : Option (St n) :=
  if (st i).capability.allowMatrixWrite then
    some (invalidatePosition t
      (updSt st i { st i with matrix := { (st i).matrix with ty := v } }) i)
  else none

/-- `set matrix(value)`. -/
def setMatrixM (t : FrameTree n) (st : St n) (i : Fin n) (m : M2) :
    Option (St n) :=
  if (st i).capability.allowMatrixWrite then
    some (invalidatePosition t (updSt st i { st i with matrix := m }) i)
  else none

/-- `_invalidateParentPaint()`. -/
def invalidateParentPaint (t : FrameTree n) (st : St n) (i : Fin n) : St n :=
  match t.parent i with
  | some p => propagateFlagsUp t maskInvalidPaint p st
  | none => st

/-- 32-bit signed wrap of `value | 0`. -/
def toInt32 (v : ℤ) : ℤ := (v + 2 ^ 31) % 2 ^ 32 - 2 ^ 31

/-- `set blendMode(value)`. -/
def setBlendModeM (t : FrameTree n) (st : St n) (i : Fin n) (v : ℤ) :
    Option (St n) :=
  if (st i).capability.allowBlendModeWrite then
    some (invalidateParentPaint t
      (updSt st i { st i with blendMode := toInt32 v }) i)
  else none

/-- `set filters(value)`. -/
def setFiltersM (t : FrameTree n) (st : St n) (i : Fin n) (v : List ℕ) :
    Option (St n) :=
  if (st i).capability.allowFiltersWrite then
    some (invalidateParentPaint t (updSt st i { st i with filters := v }) i)
  else none

/-- `set colorMatrix(value)`. -/
def setColorMatrixM (t : FrameTree n) (st : St n) (i : Fin n) (v : ℚ) :
    Option (St n) :=
  if (st i).capability.allowColorMatrixWrite then
    some (invalidateParentPaint t
      (propagateFlagsDown t (updSt st i { st i with colorMatrix := v }) i maskICC) i)
  else none

/-- `invalidate()`: sets the Dirty flag on one frame. -/
def invalidateM (st : St n) (i : Fin n) : St n :=
  updSt st i { st i with flags := Flags.or (st i).flags dirtyMask }

/-- `set mask(value)`. -/
def setMaskM (t : FrameTree n) (st : St n) (i : Fin n) (v : Option (Fin n)) :
    Option (St n) :=
  if (st i).capability.allowMaskWrite then
    let st1 := match (st i).mask with
               | some old =>
                   if v ≠ some old then
                     updSt st old { st old with flags := Flags.andNot (st old).flags isMaskMask }
                   else st
               | none => st
    let st2 := updSt st1 i { st1 i with mask := v }
    let st3 := match v with
               | some m =>
                   invalidateM
                     (updSt st2 m { st2 m with flags := Flags.or (st2 m).flags isMaskMask }) m
               | none => st2
    some (invalidateM st3 i)
  else none

/-- `set clip(value)`. -/
def setClipM (st : St n) (i : Fin n) (v : ℤ) : Option (St n) :=
  if (st i).capability.allowClipWrite then
    some (updSt st i { st i with clip := v })
  else none

/-- `set previouslyRenderedAABB(rectangle)`: a plain assignment, no
capability check and no invalidation. -/
def setPrevAABBM (st : St n) (i : Fin n) (r : Option Rect) : St n :=
  updSt st i { st i with prevAABB := r }

/-- `set smoothing(value)`: no capability check in the source. -/
def setSmoothingM (st : St n) (i : Fin n) (v : ℕ) : St n :=
  updSt st i { st i with smoothing := v, flags := Flags.or (st i).flags dirtyMask }

/-- `set pixelSnapping(value)`: no capability check in the source. -/
def setPixelSnappingM (st : St n) (i : Fin n) (v : ℕ) : St n :=
  updSt st i { st i with pixelSnapping := v, flags := Flags.or (st i).flags dirtyMask }

/-- One step of a client interaction relevant to the transform claims:
a local-transform mutation through the `x`, `y` or `matrix` setter, or a
`getConcatenatedMatrix` query (which mutates caches). -/
inductive Step (n : ℕ) where
  | setX (i : Fin n) (v : ℚ)
  | setY (i : Fin n) (v : ℚ)
  | setMatrix (i : Fin n) (m : M2)
  | query (i : Fin n)

/-- Apply one step.  A capability fault (impossible from the default
`AllowAllWrite` construction state) leaves the state unchanged. -/
def applyStep (t : FrameTree n) (st : St n) : Step n → St n
  | .setX i v => (setXM t st i v).getD st
  | .setY i v => (setYM t st i v).getD st
  | .setMatrix i m => (setMatrixM t st i m).getD st
  | .query i => (getConcatenatedMatrixM t st i).2

/-- Run a sequence of steps. -/
def runSteps (t : FrameTree n) (steps : List (Step n)) (st : St n) : St n :=
  steps.foldl (applyStep t) st

/-- The concatenated-matrix cache invariant: whenever a frame's
`InvalidConcatenatedMatrix` flag is clear, its cached concatenated matrix
is the true root-to-frame composition, and its parent's flag is clear too. -/
def Inv (t : FrameTree n) (st : St n) : Prop :=
  ∀ i : Fin n, (st i).flags.invalidConcatenatedMatrix = false →
    (st i).concatenatedMatrix = trueConcat t st i ∧
    ∀ p, t.parent i = some p → (st p).flags.invalidConcatenatedMatrix = false

/-! ### Helper lemmas about the state operations -/

theorem updSt_self (st : St n) (i : Fin n) (d : FrameSt n) : updSt st i d i = d := by
  simp [updSt]

theorem updSt_other (st : St n) (i : Fin n) (d : FrameSt n) (j : Fin n)
    (h : j ≠ i) : updSt st i d j = st j := by
  simp [updSt, h]

theorem or_icm (f g : Flags) :
    (Flags.or f g).invalidConcatenatedMatrix =
      (f.invalidConcatenatedMatrix || g.invalidConcatenatedMatrix) := rfl

theorem andNot_icm_maskICM (f : Flags) :
    (Flags.andNot f maskICM).invalidConcatenatedMatrix = false := by
  simp [Flags.andNot, maskICM]

theorem chainFrom_trans (t : FrameTree n) :
    ∀ (c : Fin n), ∀ b ∈ chainFrom t c, ∀ a ∈ chainFrom t b, a ∈ chainFrom t c := by
  intro c
  cases h : t.parent c with
  | none =>
      rw [chainFrom_root t c h]
      intro b hb a ha
      simp only [List.mem_singleton] at hb
      rw [hb] at ha
      rwa [chainFrom_root t c h] at ha
  | some p =>
      rw [chainFrom_step t c p h]
      intro b hb a ha
      rcases List.mem_cons.mp hb with hbc | hb
      · rw [hbc] at ha
        rwa [chainFrom_step t c p h] at ha
      · exact List.mem_cons_of_mem _ (chainFrom_trans t p b hb a ha)
termination_by c => t.rank c
decreasing_by exact t.parentRank c p h

theorem parent_mem_chainFrom (t : FrameTree n) {j p : Fin n}
    (hp : t.parent j = some p) : p ∈ chainFrom t j := by
  rw [chainFrom_step t j p hp]
  exact List.mem_cons_of_mem _ (self_mem_chainFrom t p)

theorem propUp_stop (t : FrameTree n) (mask : Flags) (i : Fin n) (st : St n)
    (h : Flags.has (st i).flags mask = true) :
    propagateFlagsUp t mask i st = st := by
  unfold propagateFlagsUp
  simp [h]

theorem propUp_root (t : FrameTree n) (mask : Flags) (i : Fin n) (st : St n)
    (h : Flags.has (st i).flags mask = false) (hp : t.parent i = none) :
    propagateFlagsUp t mask i st =
      updSt st i { st i with flags := Flags.or (st i).flags mask } := by
  unfold propagateFlagsUp
  rw [if_neg (by simp [h])]
  split
  · rfl
  · next p hp2 => rw [hp] at hp2; cases hp2

theorem propUp_go (t : FrameTree n) (mask : Flags) (i p : Fin n) (st : St n)
    (h : Flags.has (st i).flags mask = false) (hp : t.parent i = some p) :
    propagateFlagsUp t mask i st =
      propagateFlagsUp t mask p
        (updSt st i { st i with flags := Flags.or (st i).flags mask }) := by
  conv_lhs => unfold propagateFlagsUp
  rw [if_neg (by simp [h])]
  split
  · next hp2 => rw [hp] at hp2; cases hp2
  · next p2 hp2 =>
      rw [hp] at hp2
      cases hp2
      rfl

/-- `propagateFlagsUp` touches only flag bits, and only the bits of its
mask; every matrix, cache, and any flag bit outside the mask is untouched. -/
theorem propUp_preserve (t : FrameTree n) (mask : Flags)
    (hmask : mask.invalidConcatenatedMatrix = false) :
    ∀ (i : Fin n) (st : St n) (j : Fin n),
      ((propagateFlagsUp t mask i st) j).matrix = (st j).matrix ∧
      ((propagateFlagsUp t mask i st) j).concatenatedMatrix = (st j).concatenatedMatrix ∧
      ((propagateFlagsUp t mask i st) j).flags.invalidConcatenatedMatrix =
        (st j).flags.invalidConcatenatedMatrix := by
  intro i st j
  by_cases hh : Flags.has (st i).flags mask = true
  · rw [propUp_stop t mask i st hh]
    exact ⟨rfl, rfl, rfl⟩
  · have hh2 : Flags.has (st i).flags mask = false := by
      cases hb : Flags.has (st i).flags mask
      · rfl
      · exact absurd hb hh
    have hupd : ∀ k : Fin n,
        ((updSt st i { st i with flags := Flags.or (st i).flags mask }) k).matrix
            = (st k).matrix ∧
        ((updSt st i { st i with flags := Flags.or (st i).flags mask }) k).concatenatedMatrix
            = (st k).concatenatedMatrix ∧
        ((updSt st i { st i with flags := Flags.or (st i).flags mask }) k).flags.invalidConcatenatedMatrix
            = (st k).flags.invalidConcatenatedMatrix := by
      intro k
      by_cases hk : k = i
      · subst hk
        rw [updSt_self]
        refine ⟨rfl, rfl, ?_⟩
        simp [Flags.or, hmask]
      · rw [updSt_other _ _ _ _ hk]
        exact ⟨rfl, rfl, rfl⟩
    cases hp : t.parent i with
    | none =>
        rw [propUp_root t mask i st hh2 hp]
        exact hupd j
    | some p =>
        rw [propUp_go t mask i p st hh2 hp]
        have ih := propUp_preserve t mask hmask p
          (updSt st i { st i with flags := Flags.or (st i).flags mask }) j
        exact ⟨ih.1.trans (hupd j).1, ih.2.1.trans (hupd j).2.1,
               ih.2.2.trans (hupd j).2.2⟩
termination_by i => t.rank i
decreasing_by exact t.parentRank i p hp

theorem propDown_apply (t : FrameTree n) (st : St n) (i : Fin n) (mask : Flags)
    (j : Fin n) :
    (propagateFlagsDown t st i mask) j =
      (if i ∈ chainFrom t j then { st j with flags := Flags.or (st j).flags mask }
       else st j) := rfl

/-- The combined field effect of `_invalidatePosition`: matrices and caches
are untouched everywhere, and `InvalidConcatenatedMatrix` is set exactly on
the frame and its descendants. -/
theorem invalidatePosition_fields (t : FrameTree n) (st : St n) (i j : Fin n) :
    ((invalidatePosition t st i) j).matrix = (st j).matrix ∧
    ((invalidatePosition t st i) j).concatenatedMatrix = (st j).concatenatedMatrix ∧
    ((invalidatePosition t st i) j).flags.invalidConcatenatedMatrix =
      (if i ∈ chainFrom t j then true else (st j).flags.invalidConcatenatedMatrix) := by
  have hdown : ∀ (st0 : St n),
      ((propagateFlagsDown t st0 i maskICMandIICM) j).matrix = (st0 j).matrix ∧
      ((propagateFlagsDown t st0 i maskICMandIICM) j).concatenatedMatrix = (st0 j).concatenatedMatrix ∧
      ((propagateFlagsDown t st0 i maskICMandIICM) j).flags.invalidConcatenatedMatrix =
        (if i ∈ chainFrom t j then true else (st0 j).flags.invalidConcatenatedMatrix) := by
    intro st0
    rw [propDown_apply]
    by_cases hm : i ∈ chainFrom t j
    · simp [hm, or_icm, maskICMandIICM]
    · simp [hm]
  unfold invalidatePosition
  cases hp : t.parent i with
  | none =>
      simp only [hp]
      exact hdown st
  | some p =>
      simp only [hp]
      have h1 := hdown st
      have h2 := propUp_preserve t maskInvalidBounds rfl p
        (propagateFlagsDown t st i maskICMandIICM) j
      have h3 := propUp_preserve t maskInvalidPaint rfl p
        (propagateFlagsUp t maskInvalidBounds p (propagateFlagsDown t st i maskICMandIICM)) j
      refine ⟨?_, ?_, ?_⟩
      · rw [h3.1, h2.1, h1.1]
      · rw [h3.2.1, h2.2.1, h1.2.1]
      · rw [h3.2.2, h2.2.2, h1.2.2]

/-- Setters that change only the local matrix of frame `i` and then call
`_invalidatePosition` preserve the cache invariant. -/
theorem inv_invalidatePosition_upd (t : FrameTree n) (st : St n) (i : Fin n)
    (d : FrameSt n) (hdf : d.flags = (st i).flags)
    (hInv : Inv t st) :
    Inv t (invalidatePosition t (updSt st i d) i) := by
  intro j hj
  have hf := (invalidatePosition_fields t (updSt st i d) i j).2.2
  rw [hj] at hf
  by_cases hm : i ∈ chainFrom t j
  · rw [if_pos hm] at hf
    cases hf
  · rw [if_neg hm] at hf
    have hji : j ≠ i := by
      intro he
      subst he
      exact hm (self_mem_chainFrom t j)
    rw [updSt_other _ _ _ _ hji] at hf
    have hInvj := hInv j hf.symm
    have hmat : ∀ k ∈ chainFrom t j,
        ((invalidatePosition t (updSt st i d) i) k).matrix = (st k).matrix := by
      intro k hk
      have hki : k ≠ i := by
        intro he
        subst he
        exact hm hk
      rw [(invalidatePosition_fields t (updSt st i d) i k).1, updSt_other _ _ _ _ hki]
    constructor
    · rw [(invalidatePosition_fields t (updSt st i d) i j).2.1,
          updSt_other _ _ _ _ hji,
          trueConcat_congr t st _ j hmat]
      exact hInvj.1
    · intro p hp
      have hpi : p ≠ i := by
        intro he
        subst he
        exact hm (parent_mem_chainFrom t hp)
      have hpm : i ∉ chainFrom t p := by
        intro hin
        exact hm (chainFrom_trans t j p (parent_mem_chainFrom t hp) i hin)
      have hfp := (invalidatePosition_fields t (updSt st i d) i p).2.2
      rw [if_neg hpm, updSt_other _ _ _ _ hpi] at hfp
      rw [hfp]
      exact hInvj.2 p hp

/-! ### Equation lemmas for the closest-valid-ancestor walk -/

theorem findClosest_self (t : FrameTree n) (st : St n) (mask : Flags) (onv : Bool)
    (i : Fin n) (h : Flags.has (st i).flags mask = onv) :
    findClosestAncestor t st mask onv i = some i := by
  unfold findClosestAncestor
  simp [h]

theorem findClosest_root (t : FrameTree n) (st : St n) (mask : Flags) (onv : Bool)
    (i : Fin n) (h : ¬ Flags.has (st i).flags mask = onv) (hp : t.parent i = none) :
    findClosestAncestor t st mask onv i = none := by
  unfold findClosestAncestor
  rw [if_neg h]
  split
  · rfl
  · next p hp2 => rw [hp] at hp2; cases hp2

theorem findClosest_go (t : FrameTree n) (st : St n) (mask : Flags) (onv : Bool)
    (i p : Fin n) (h : ¬ Flags.has (st i).flags mask = onv) (hp : t.parent i = some p) :
    findClosestAncestor t st mask onv i = findClosestAncestor t st mask onv p := by
  conv_lhs => unfold findClosestAncestor
  rw [if_neg h]
  split
  · next hp2 => rw [hp] at hp2; cases hp2
  · next p2 hp2 =>
      rw [hp] at hp2
      cases hp2
      rfl

theorem getAncestors_stop (t : FrameTree n) (i : Fin n) (last : Option (Fin n))
    (h : last = some i) : getAncestors t i last = [] := by
  unfold getAncestors
  simp [h]

theorem getAncestors_root (t : FrameTree n) (i : Fin n) (last : Option (Fin n))
    (h : ¬ last = some i) (hp : t.parent i = none) :
    getAncestors t i last = [i] := by
  unfold getAncestors
  rw [if_neg h]
  simp only [List.cons.injEq, true_and]
  split
  · rfl
  · next p hp2 => rw [hp] at hp2; cases hp2

theorem getAncestors_go (t : FrameTree n) (i p : Fin n) (last : Option (Fin n))
    (h : ¬ last = some i) (hp : t.parent i = some p) :
    getAncestors t i last = i :: getAncestors t p last := by
  conv_lhs => unfold getAncestors
  rw [if_neg h]
  simp only [List.cons.injEq, true_and]
  split
  · next hp2 => rw [hp] at hp2; cases hp2
  · next p2 hp2 =>
      rw [hp] at hp2
      cases hp2
      rfl

/-- Every frame returned by the closest-ancestor walk lies on the ancestor
chain of the start frame. -/
theorem findClosest_mem (t : FrameTree n) (st : St n) (mask : Flags) (onv : Bool) :
    ∀ (i : Fin n) (a : Fin n), findClosestAncestor t st mask onv i = some a →
      a ∈ chainFrom t i := by
  intro i a ha
  by_cases hh : Flags.has (st i).flags mask = onv
  · rw [findClosest_self t st mask onv i hh] at ha
    cases ha
    exact self_mem_chainFrom t i
  · cases hp : t.parent i with
    | none => rw [findClosest_root t st mask onv i hh hp] at ha; cases ha
    | some p =>
        rw [findClosest_go t st mask onv i p hh hp] at ha
        rw [chainFrom_step t i p hp]
        exact List.mem_cons_of_mem _ (findClosest_mem t st mask onv p a ha)
termination_by i => t.rank i
decreasing_by exact t.parentRank i p hp

/-- The frame found by the closest-ancestor walk indeed tests to `onv`. -/
theorem findClosest_found (t : FrameTree n) (st : St n) (mask : Flags) (onv : Bool) :
    ∀ (i : Fin n) (a : Fin n), findClosestAncestor t st mask onv i = some a →
      Flags.has (st a).flags mask = onv := by
  intro i a ha
  by_cases hh : Flags.has (st i).flags mask = onv
  · rw [findClosest_self t st mask onv i hh] at ha
    cases ha
    exact hh
  · cases hp : t.parent i with
    | none => rw [findClosest_root t st mask onv i hh hp] at ha; cases ha
    | some p =>
        rw [findClosest_go t st mask onv i p hh hp] at ha
        exact findClosest_found t st mask onv p a ha
termination_by i => t.rank i
decreasing_by exact t.parentRank i p hp

theorem getAncestors_rank_le (t : FrameTree n) :
    ∀ (i : Fin n) (last : Option (Fin n)),
      ∀ a ∈ getAncestors t i last, t.rank a ≤ t.rank i := by
  intro i last a ha
  by_cases hl : last = some i
  · rw [getAncestors_stop t i last hl] at ha
    cases ha
  · cases hp : t.parent i with
    | none =>
        rw [getAncestors_root t i last hl hp] at ha
        simp only [List.mem_singleton] at ha
        rw [ha]
    | some p =>
        rw [getAncestors_go t i p last hl hp] at ha
        rcases List.mem_cons.mp ha with hai | ha
        · rw [hai]
        · exact le_of_lt (lt_of_le_of_lt
            (getAncestors_rank_le t p last a ha) (t.parentRank i p hp))
termination_by i => t.rank i
decreasing_by exact t.parentRank i p hp

/-- Nothing on the collected path equals the stop frame. -/
theorem getAncestors_ne_last (t : FrameTree n) :
    ∀ (i : Fin n) (last : Option (Fin n)),
      ∀ a ∈ getAncestors t i last, ¬ some a = last := by
  intro i last a ha
  by_cases hl : last = some i
  · rw [getAncestors_stop t i last hl] at ha
    cases ha
  · cases hp : t.parent i with
    | none =>
        rw [getAncestors_root t i last hl hp] at ha
        simp only [List.mem_singleton] at ha
        rw [ha]
        exact fun he => hl he.symm
    | some p =>
        rw [getAncestors_go t i p last hl hp] at ha
        rcases List.mem_cons.mp ha with hai | ha
        · rw [hai]
          exact fun he => hl he.symm
        · exact getAncestors_ne_last t p last a ha
termination_by i => t.rank i
decreasing_by exact t.parentRank i p hp

/-! ### Correctness of the closest-valid-ancestor recomputation -/

/-- Full characterisation of the recomputation loop of
`getConcatenatedMatrix` run on the collected invalid path: it returns the
true concatenated matrix, rewrites exactly the path frames (writing the
true concatenated matrix into each cache and clearing the invalid bit) and
leaves every other frame untouched. -/
theorem recompute_path_spec (t : FrameTree n) (st : St n) (hInv : Inv t st) :
    ∀ (i : Fin n), (st i).flags.invalidConcatenatedMatrix = true →
    ∀ (anc : Option (Fin n)) (m0 : M2),
      findClosestAncestor t st maskICM false i = anc →
      m0 = (match anc with
            | some a => (st a).concatenatedMatrix
            | none => M2.idm) →
      (recomputeConcat (getAncestors t i anc) m0 st).1 = trueConcat t st i ∧
      (∀ j, j ∉ getAncestors t i anc →
          (recomputeConcat (getAncestors t i anc) m0 st).2 j = st j) ∧
      (∀ j ∈ getAncestors t i anc,
          (recomputeConcat (getAncestors t i anc) m0 st).2 j =
            { st j with concatenatedMatrix := trueConcat t st j,
                        flags := Flags.andNot (st j).flags maskICM }) := by
  intro i hflag anc m0 hanc hm0
  have hhasi : Flags.has (st i).flags maskICM = true := by
    rw [Flags.has_maskICM]; exact hflag
  have hhasi_ne : ¬ Flags.has (st i).flags maskICM = false := by simp [hhasi]
  cases hp : t.parent i with
  | none =>
      have hanc2 : anc = none := by
        rw [← hanc, findClosest_root t st maskICM false i hhasi_ne hp]
      subst hanc2
      have hm0i : m0 = M2.idm := hm0
      subst hm0i
      have hpath : getAncestors t i none = [i] :=
        getAncestors_root t i none (by simp) hp
      rw [hpath]
      refine ⟨?_, ?_, ?_⟩
      · simp only [recomputeConcat]
        rw [M2.idm_mul]
        exact (trueConcat_root t st i hp).symm
      · intro j hj
        simp only [List.mem_singleton] at hj
        simp only [recomputeConcat]
        rw [updSt_other _ _ _ _ hj]
      · intro j hj
        simp only [List.mem_singleton] at hj
        subst hj
        simp only [recomputeConcat]
        rw [updSt_self, M2.idm_mul, trueConcat_root t st j hp]
  | some p =>
      have hrank := t.parentRank i p hp
      by_cases hpicm : (st p).flags.invalidConcatenatedMatrix = true
      · -- the parent is invalid too: the path extends through it
        have hanc2 : findClosestAncestor t st maskICM false p = anc := by
          rw [← hanc, findClosest_go t st maskICM false i p hhasi_ne hp]
        have hne : ¬ anc = some i := by
          intro he
          rw [he] at hanc2
          have hmem := findClosest_mem t st maskICM false p i hanc2
          have hle := chainFrom_rank_le t p i hmem
          omega
        have hpath : getAncestors t i anc = i :: getAncestors t p anc :=
          getAncestors_go t i p anc hne hp
        obtain ⟨ih1, ih2, ih3⟩ :=
          recompute_path_spec t st hInv p hpicm anc m0 hanc2 hm0
        have hinotp : i ∉ getAncestors t p anc := by
          intro hmem
          have hle := getAncestors_rank_le t p anc i hmem
          omega
        rw [hpath]
        refine ⟨?_, ?_, ?_⟩
        · simp only [recomputeConcat]
          rw [ih2 i hinotp, ih1, ← trueConcat_step t st i p hp]
        · intro j hj
          have hji : j ≠ i := fun he => hj (by rw [he]; exact List.mem_cons_self _ _)
          have hjrest : j ∉ getAncestors t p anc :=
            fun hm => hj (List.mem_cons_of_mem _ hm)
          simp only [recomputeConcat]
          rw [updSt_other _ _ _ _ hji]
          exact ih2 j hjrest
        · intro j hj
          rcases List.mem_cons.mp hj with hji | hjrest
          · subst hji
            simp only [recomputeConcat]
            rw [updSt_self, ih2 j hinotp, ih1, ← trueConcat_step t st j p hp]
          · have hji : j ≠ i := by
              intro he
              rw [he] at hjrest
              exact hinotp hjrest
            simp only [recomputeConcat]
            rw [updSt_other _ _ _ _ hji]
            exact ih3 j hjrest
      · -- the parent is the closest valid ancestor
        have hpicm2 : (st p).flags.invalidConcatenatedMatrix = false :=
          Bool.eq_false_iff.mpr hpicm
        have hhasp : Flags.has (st p).flags maskICM = false := by
          rw [Flags.has_maskICM]; exact hpicm2
        have hanc2 : anc = some p := by
          rw [← hanc, findClosest_go t st maskICM false i p hhasi_ne hp,
              findClosest_self t st maskICM false p hhasp]
        subst hanc2
        have hm0p : m0 = (st p).concatenatedMatrix := hm0
        subst hm0p
        have hcachep : (st p).concatenatedMatrix = trueConcat t st p :=
          (hInv p hpicm2).1
        have hne : ¬ (some p : Option (Fin n)) = some i := by
          intro he
          have hpi : p = i := Option.some.inj he
          rw [hpi] at hrank
          exact lt_irrefl _ hrank
        have hpath : getAncestors t i (some p) = [i] := by
          rw [getAncestors_go t i p (some p) hne hp, getAncestors_stop t p (some p) rfl]

        rw [hpath]
        refine ⟨?_, ?_, ?_⟩
        · simp only [recomputeConcat]
          rw [hcachep, ← trueConcat_step t st i p hp]
        · intro j hj
          simp only [List.mem_singleton] at hj
          simp only [recomputeConcat]
          rw [updSt_other _ _ _ _ hj]
        · intro j hj
          simp only [List.mem_singleton] at hj
          subst hj
          simp only [recomputeConcat]
          rw [updSt_self, hcachep, ← trueConcat_step t st j p hp]
termination_by i => t.rank i
decreasing_by exact t.parentRank i p hp

/-- The parent of any frame on the collected invalid path is either on the
path itself or is the closest valid ancestor. -/
theorem path_anc_parent (t : FrameTree n) (st : St n) :
    ∀ (i : Fin n), (st i).flags.invalidConcatenatedMatrix = true →
    ∀ (anc : Option (Fin n)), findClosestAncestor t st maskICM false i = anc →
    ∀ j ∈ getAncestors t i anc, ∀ q, t.parent j = some q →
      q ∈ getAncestors t i anc ∨ anc = some q := by
  intro i hflag anc hanc
  have hhasi : Flags.has (st i).flags maskICM = true := by
    rw [Flags.has_maskICM]; exact hflag
  have hhasi_ne : ¬ Flags.has (st i).flags maskICM = false := by simp [hhasi]
  cases hp : t.parent i with
  | none =>
      have hanc2 : anc = none := by
        rw [← hanc, findClosest_root t st maskICM false i hhasi_ne hp]
      subst hanc2
      rw [getAncestors_root t i none (by simp) hp]
      intro j hj q hq
      simp only [List.mem_singleton] at hj
      subst hj
      rw [hp] at hq
      cases hq
  | some p =>
      have hrank := t.parentRank i p hp
      by_cases hpicm : (st p).flags.invalidConcatenatedMatrix = true
      · have hanc2 : findClosestAncestor t st maskICM false p = anc := by
          rw [← hanc, findClosest_go t st maskICM false i p hhasi_ne hp]
        have hne : ¬ anc = some i := by
          intro he
          rw [he] at hanc2
          have hmem := findClosest_mem t st maskICM false p i hanc2
          have hle := chainFrom_rank_le t p i hmem
          omega
        rw [getAncestors_go t i p anc hne hp]
        intro j hj q hq
        rcases List.mem_cons.mp hj with hji | hjrest
        · subst hji
          rw [hp] at hq
          cases hq
          left
          have hnep : ¬ anc = some p := by
            intro he
            have hf := findClosest_found t st maskICM false p p (hanc2.trans he)
            rw [Flags.has_maskICM, hpicm] at hf
            cases hf
          have hmemp : p ∈ getAncestors t p anc := by
            cases hpp : t.parent p with
            | none => rw [getAncestors_root t p anc hnep hpp]; exact List.mem_singleton.mpr rfl
            | some r => rw [getAncestors_go t p r anc hnep hpp]; exact List.mem_cons_self _ _
          exact List.mem_cons_of_mem _ hmemp
        · rcases path_anc_parent t st p hpicm anc hanc2 j hjrest q hq with hmem | hsome
          · exact Or.inl (List.mem_cons_of_mem _ hmem)
          · exact Or.inr hsome
      · have hpicm2 : (st p).flags.invalidConcatenatedMatrix = false :=
          Bool.eq_false_iff.mpr hpicm
        have hhasp : Flags.has (st p).flags maskICM = false := by
          rw [Flags.has_maskICM]; exact hpicm2
        have hanc2 : anc = some p := by
          rw [← hanc, findClosest_go t st maskICM false i p hhasi_ne hp,
              findClosest_self t st maskICM false p hhasp]
        subst hanc2
        have hne : ¬ (some p : Option (Fin n)) = some i := by
          intro he
          have hpi : p = i := Option.some.inj he
          rw [hpi] at hrank
          exact lt_irrefl _ hrank
        rw [getAncestors_go t i p (some p) hne hp, getAncestors_stop t p (some p) rfl]
        intro j hj q hq
        simp only [List.mem_singleton] at hj
        subst hj
        rw [hp] at hq
        cases hq
        exact Or.inr rfl
termination_by i => t.rank i
decreasing_by exact t.parentRank i p hp

/-- After the recomputation loop the cache invariant holds again. -/
theorem inv_after_recompute (t : FrameTree n) (st : St n) (hInv : Inv t st)
    (i : Fin n) (hflag : (st i).flags.invalidConcatenatedMatrix = true)
    (anc : Option (Fin n)) (m0 : M2)
    (hm0 : m0 = (match anc with
                 | some a => (st a).concatenatedMatrix
                 | none => M2.idm))
    (hanc : findClosestAncestor t st maskICM false i = anc) :
    Inv t (recomputeConcat (getAncestors t i anc) m0 st).2 := by
  obtain ⟨h1, h2, h3⟩ := recompute_path_spec t st hInv i hflag anc m0 hanc hm0
  have hmat : ∀ k, ((recomputeConcat (getAncestors t i anc) m0 st).2 k).matrix
      = (st k).matrix := by
    intro k
    by_cases hk : k ∈ getAncestors t i anc
    · rw [h3 k hk]
    · rw [h2 k hk]
  have htc : ∀ k, trueConcat t (recomputeConcat (getAncestors t i anc) m0 st).2 k
      = trueConcat t st k := by
    intro k
    exact trueConcat_congr t st _ k (fun a _ => hmat a)
  intro j hicmj
  by_cases hjp : j ∈ getAncestors t i anc
  · constructor
    · rw [h3 j hjp, htc j]
    · intro q hq
      rcases path_anc_parent t st i hflag anc hanc j hjp q hq with hqp | hqa
      · rw [h3 q hqp]
        exact andNot_icm_maskICM (st q).flags
      · have hqnot : q ∉ getAncestors t i anc := by
          intro hm
          exact getAncestors_ne_last t i anc q hm hqa.symm
        rw [h2 q hqnot]
        have hf := findClosest_found t st maskICM false i q (hanc.trans hqa)
        rw [Flags.has_maskICM] at hf
        exact hf
  · have hrj := h2 j hjp
    rw [hrj] at hicmj
    have hInvj := hInv j hicmj
    constructor
    · rw [hrj, htc j]
      exact hInvj.1
    · intro q hq
      by_cases hqp : q ∈ getAncestors t i anc
      · rw [h3 q hqp]
        exact andNot_icm_maskICM (st q).flags
      · rw [h2 q hqp]
        exact hInvj.2 q hq

/-- Combined specification of `getConcatenatedMatrix`: from any state
satisfying the cache invariant it returns the true concatenated matrix,
leaves every local matrix unchanged, and preserves the invariant. -/
theorem getConcat_spec (t : FrameTree n) (st : St n) (hInv : Inv t st) (i : Fin n) :
    (getConcatenatedMatrixM t st i).1 = trueConcat t st i ∧
    (∀ j, ((getConcatenatedMatrixM t st i).2 j).matrix = (st j).matrix) ∧
    Inv t (getConcatenatedMatrixM t st i).2 := by
  by_cases hflag : (st i).flags.invalidConcatenatedMatrix = true
  · have hne : ¬ findClosestAncestor t st maskICM false i = some i := by
      intro he
      have hf := findClosest_found t st maskICM false i i he
      rw [Flags.has_maskICM, hflag] at hf
      cases hf
    have hmem_i : i ∈ getAncestors t i (findClosestAncestor t st maskICM false i) := by
      cases hp : t.parent i with
      | none =>
          rw [getAncestors_root t i _ hne hp]
          exact List.mem_singleton.mpr rfl
      | some p =>
          rw [getAncestors_go t i p _ hne hp]
          exact List.mem_cons_self _ _
    obtain ⟨h1, h2, h3⟩ := recompute_path_spec t st hInv i hflag
      (findClosestAncestor t st maskICM false i)
      (match findClosestAncestor t st maskICM false i with
       | some a => (st a).concatenatedMatrix
       | none => M2.idm) rfl rfl
    have hInv2 := inv_after_recompute t st hInv i hflag
      (findClosestAncestor t st maskICM false i)
      (match findClosestAncestor t st maskICM false i with
       | some a => (st a).concatenatedMatrix
       | none => M2.idm) rfl rfl
    simp only [getConcatenatedMatrixM, if_pos hflag]
    refine ⟨?_, ?_, hInv2⟩
    · rw [h3 i hmem_i]
    · intro j
      by_cases hjp : j ∈ getAncestors t i (findClosestAncestor t st maskICM false i)
      · rw [h3 j hjp]
      · rw [h2 j hjp]
  · have hflag2 : (st i).flags.invalidConcatenatedMatrix = false :=
      Bool.eq_false_iff.mpr hflag
    simp only [getConcatenatedMatrixM, hflag2]
    exact ⟨(hInv i hflag2).1, fun j => rfl, hInv⟩

/-- Every interaction step preserves the concatenated-matrix cache
invariant. -/
theorem inv_applyStep (t : FrameTree n) (st : St n) (s : Step n)
    (hInv : Inv t st) : Inv t (applyStep t st s) := by
  cases s with
  | setX i v =>
      simp only [applyStep, setXM]
      by_cases hcap : (st i).capability.allowMatrixWrite = true
      · rw [if_pos hcap]
        exact inv_invalidatePosition_upd t st i _ rfl hInv
      · rw [if_neg hcap]
        exact hInv
  | setY i v =>
      simp only [applyStep, setYM]
      by_cases hcap : (st i).capability.allowMatrixWrite = true
      · rw [if_pos hcap]
        exact inv_invalidatePosition_upd t st i _ rfl hInv
      · rw [if_neg hcap]
        exact hInv
  | setMatrix i m =>
      simp only [applyStep, setMatrixM]
      by_cases hcap : (st i).capability.allowMatrixWrite = true
      · rw [if_pos hcap]
        exact inv_invalidatePosition_upd t st i _ rfl hInv
      · rw [if_neg hcap]
        exact hInv
  | query i =>
      exact (getConcat_spec t st hInv i).2.2

/-- The invariant holds of the freshly constructed tree (vacuously: every
invalid bit is set by the constructor). -/
theorem inv_initSt (t : FrameTree n) : Inv t (initSt n) := by
  intro i hicm
  cases hicm

theorem inv_runSteps (t : FrameTree n) (steps : List (Step n)) :
    ∀ (st : St n), Inv t st → Inv t (runSteps t steps st) := by
  induction steps with
  | nil => intro st h; exact h
  | cons s steps ih =>
      intro st h
      exact ih (applyStep t st s) (inv_applyStep t st s h)

/-! ### Claim theorems for the frame transform subsystem -/

/-- C1: for every frame tree and every frame in it, after any sequence of
local-transform mutations (through the `x`, `y` or `matrix` setters) on
arbitrary frames interleaved with queries in any order,
`getConcatenatedMatrix()` returns the composition of the local matrices of
every ancestor from the root down to that frame (each local matrix
pre-multiplied into the accumulated parent matrix).  The result depends
only on the current local matrices, hence is independent of the order of
queries and of mutations of unrelated sibling frames. -/
theorem frame_concatenated_matrix_correct (n : ℕ) (t : FrameTree n)
    (steps : List (Step n)) (i : Fin n) :
    (getConcatenatedMatrixM t (runSteps t steps (initSt n)) i).1 =
      trueConcat t (runSteps t steps (initSt n)) i :=
  (getConcat_spec t _ (inv_runSteps t steps _ (inv_initSt t)) i).1

/-- A one-frame tree (a freshly constructed root). -/
def t1 : FrameTree 1 :=
  ⟨fun _ => none, fun _ => 0, by intro i j h; cases h⟩

/-- C2 counterexample: the claimed invariant is an "exactly when" (iff).
Already at construction it fails in the only-if direction: a freshly
constructed single frame has its `InvalidConcatenatedMatrix` flag set while
its cached concatenated matrix (the identity) nevertheless equals the true
root-to-frame composition (also the identity). -/
theorem frame_cache_invariant_iff_fails :
    ((initSt 1) 0).flags.invalidConcatenatedMatrix = true ∧
    ((initSt 1) 0).concatenatedMatrix = trueConcat t1 (initSt 1) 0 := by
  constructor
  · rfl
  · rw [trueConcat, chainFrom_root t1 0 rfl]
    simp [initSt, initFrame, M2.idm_mul]

/-- C2 (amended): every Frame operation (construction, the `x`/`y`/`matrix`
setters, `getConcatenatedMatrix`) preserves the invariant that whenever a
frame's `InvalidConcatenatedMatrix` flag is clear, its cached concatenated
matrix equals the true root-to-frame composition and the flag is also clear
on every strict ancestor up to the root (the converse direction of the
original claim does not hold). -/
theorem frame_cache_invariant_preserved (n : ℕ) (t : FrameTree n)
    (steps : List (Step n)) :
    Inv t (runSteps t steps (initSt n)) :=
  inv_runSteps t steps _ (inv_initSt t)

/-- C10: setting a frame's clip value (given the clip-write capability)
changes only the stored clip number of that frame: no flags are set, no
invalidation is propagated, and every other field of the frame and every
other frame of the tree is unchanged. -/
theorem frame_clip_setter_local_only (n : ℕ) (st : St n) (i : Fin n) (v : ℤ)
    (h : (st i).capability.allowClipWrite = true) :
    setClipM st i v = some (updSt st i { st i with clip := v }) := by
  simp [setClipM, h]

/-- Witness for C10 at a concrete freshly constructed one-frame tree. -/
theorem frame_clip_setter_local_only_witness :
    ((initSt 1) 0).capability.allowClipWrite = true ∧
    setClipM (initSt 1) 0 5 =
      some (updSt (initSt 1) 0 { (initSt 1) 0 with clip := 5 }) :=
  ⟨rfl, frame_clip_setter_local_only 1 (initSt 1) 0 5 rfl⟩

/-- A frame with every capability removed. -/
def noCapFrame (n : ℕ) : FrameSt n := { initFrame n with capability := {} }

/-- A one-frame tree state whose only frame has no capabilities. -/
def noCapSt : St 1 := fun _ => noCapFrame 1

/-- C8 counterexample: the `smoothing` setter performs no capability check;
on a frame lacking every capability it silently changes the property
instead of faulting. -/
theorem frame_smoothing_mutator_unchecked :
    (noCapSt 0).capability = ({} : Caps) ∧
    (noCapSt 0).smoothing = 0 ∧
    ((setSmoothingM noCapSt 0 1) 0).smoothing = 1 := by
  exact ⟨rfl, rfl, rfl⟩

/-- C8 (amended): the `x`/`y`/`matrix`, `blendMode`, `filters`,
`colorMatrix`, `mask` and `clip` setters check the capability mask first
and fault without mutating when the relevant capability is missing; the
`smoothing` and `pixelSnapping` setters (and `previouslyRenderedAABB`)
mutate unconditionally, with no capability check. -/
theorem frame_mutators_capability_checked (n : ℕ) (t : FrameTree n)
    (st : St n) (i : Fin n) (v : ℚ) (m : M2) (bm : ℤ) (fs : List ℕ) (cm : ℚ)
    (mk : Option (Fin n)) (cl : ℤ) (sm ps : ℕ) :
    ((st i).capability.allowMatrixWrite = false →
        setXM t st i v = none ∧ setYM t st i v = none ∧ setMatrixM t st i m = none) ∧
    ((st i).capability.allowBlendModeWrite = false → setBlendModeM t st i bm = none) ∧
    ((st i).capability.allowFiltersWrite = false → setFiltersM t st i fs = none) ∧
    ((st i).capability.allowColorMatrixWrite = false → setColorMatrixM t st i cm = none) ∧
    ((st i).capability.allowMaskWrite = false → setMaskM t st i mk = none) ∧
    ((st i).capability.allowClipWrite = false → setClipM st i cl = none) ∧
    setSmoothingM st i sm =
      updSt st i { st i with smoothing := sm, flags := Flags.or (st i).flags dirtyMask } ∧
    setPixelSnappingM st i ps =
      updSt st i { st i with pixelSnapping := ps, flags := Flags.or (st i).flags dirtyMask } := by
  refine ⟨?_, ?_, ?_, ?_, ?_, ?_, rfl, rfl⟩
  · intro h
    refine ⟨?_, ?_, ?_⟩ <;> simp [setXM, setYM, setMatrixM, h]
  · intro h
    simp [setBlendModeM, h]
  · intro h
    simp [setFiltersM, h]
  · intro h
    simp [setColorMatrixM, h]
  · intro h
    simp [setMaskM, h]
  · intro h
    simp [setClipM, h]

/-- Witness for the amended C8 on the capability-free frame. -/
theorem frame_mutators_capability_checked_witness :
    (noCapSt 0).capability.allowMatrixWrite = false ∧
    setXM t1 noCapSt 0 3 = none ∧
    setClipM noCapSt 0 2 = none :=
  ⟨rfl,
   ((frame_mutators_capability_checked 1 t1 noCapSt 0 3 M2.idm 0 [] 0 none 2 1 1).1 rfl).1,
   (frame_mutators_capability_checked 1 t1 noCapSt 0 3 M2.idm 0 [] 0 none 2 1 1).2.2.2.2.2.1 rfl⟩

/-! ### The batched combined brush (WebGLCombinedBrush)

The brush state tracks the bound-texture list (`_textures`, textures as
ids), the current batch color transform (`_colorTransform`), the quads
recorded into the geometry since the last flush (each quad tagged with the
color transform it was recorded under, `null` for plain textured or fill
quads) and a monotone count of `flush` calls (instrumentation only; it
influences nothing).  The GPU-side work of `flush` (buffer upload, texture
binding, draw call) acts on external collaborators and has no effect on the
brush state beyond `reset`.  The color-matrix type is any type with
decidable equality, mirroring `ColorMatrix.equals`. -/

/-- State of a `WebGLCombinedBrush`. -/
structure Brush (κ : Type) where
  textures : List ℕ
  colorTransform : Option κ
  quads : List (Option κ)
  flushCount : ℕ
deriving DecidableEq, Repr

/-- A freshly constructed brush: no bound textures, no color transform,
empty geometry. -/
def brushInit (κ : Type) : Brush κ := ⟨[], none, [], 0⟩

/-- `flush(drawElements)`: submits and then calls `reset()`, which clears
the texture list and the geometry; the color transform persists. -/
def Brush.flushB {κ : Type} (b : Brush κ) : Brush κ :=
  { b with textures := [], quads := [], flushCount := b.flushCount + 1 }

/-- The color-transform flush test of `drawImage`:
`this._colorTransform && (!colorTransform || !this._colorTransform.equals(colorTransform))`. -/
def ctFlushNeeded {κ : Type} [DecidableEq κ] (cur ct : Option κ) : Bool :=
  match cur with
  | none => false
  | some c0 =>
      match ct with
      | none => true
      | some c => decide (¬ c0 = c)

/-- `drawImage(src, dstRectangle, color, colorTransform, transform, depth)`.
A null source (or one without a texture) returns immediately.  Otherwise:
flush if the supplied color transform differs from the current one; adopt
the supplied transform; resolve a sampler slot, flushing first when eight
textures are already bound and the texture is new; then record the quad. -/
def Brush.drawImageB {κ : Type} [DecidableEq κ] (b : Brush κ)
    (src : Option ℕ) (ct : Option κ) : Brush κ :=
  match src with
  | none => b
  | some tex =>
      let b1 := if ctFlushNeeded b.colorTransform ct then b.flushB else b
      let b2 := { b1 with colorTransform := ct }
      let b3 :=
        if tex ∈ b2.textures then b2
        else
          let b2f := if b2.textures.length = 8 then b2.flushB else b2
          { b2f with textures := b2f.textures ++ [tex] }
      { b3 with quads := b3.quads ++ [ct] }

/-- `fillRectangle`: records a solid-fill quad (no color transform). -/
def Brush.fillRectangleB {κ : Type} (b : Brush κ) : Brush κ :=
  { b with quads := b.quads ++ [none] }

/-- Brush states reachable from construction through the public
operations. -/
inductive BrushReach {κ : Type} [DecidableEq κ] : Brush κ → Prop where
  | init : BrushReach (brushInit κ)
  | draw (b : Brush κ) (src : Option ℕ) (ct : Option κ) :
      BrushReach b → BrushReach (b.drawImageB src ct)
  | fill (b : Brush κ) : BrushReach b → BrushReach b.fillRectangleB
  | flush (b : Brush κ) : BrushReach b → BrushReach b.flushB

/-- The brush data invariant: at most eight bound textures, and every
color-matrix quad recorded since the last flush carries the batch's
current color transform. -/
def BrushInv {κ : Type} (b : Brush κ) : Prop :=
  b.textures.length ≤ 8 ∧ ∀ q ∈ b.quads, q = none ∨ q = b.colorTransform

theorem drawImageB_colorTransform {κ : Type} [DecidableEq κ] (b : Brush κ)
    (tex : ℕ) (ct : Option κ) :
    (b.drawImageB (some tex) ct).colorTransform = ct := by
  simp only [Brush.drawImageB, Brush.flushB]
  split_ifs <;> rfl

theorem drawImageB_quads {κ : Type} [DecidableEq κ] (b : Brush κ)
    (tex : ℕ) (ct : Option κ) :
    (b.drawImageB (some tex) ct).quads = b.quads ++ [ct] ∨
    (b.drawImageB (some tex) ct).quads = [ct] := by
  simp only [Brush.drawImageB, Brush.flushB]
  split_ifs <;> simp

theorem drawImageB_textures_len {κ : Type} [DecidableEq κ] (b : Brush κ)
    (tex : ℕ) (ct : Option κ) (h : b.textures.length ≤ 8) :
    (b.drawImageB (some tex) ct).textures.length ≤ 8 := by
  simp only [Brush.drawImageB, Brush.flushB]
  split_ifs <;> simp_all <;> omega

theorem brushInv_drawImage {κ : Type} [DecidableEq κ] (b : Brush κ)
    (src : Option ℕ) (ct : Option κ) (h : BrushInv b) :
    BrushInv (b.drawImageB src ct) := by
  obtain ⟨hlen, hq⟩ := h
  cases src with
  | none => exact ⟨hlen, hq⟩
  | some tex =>
      refine ⟨drawImageB_textures_len b tex ct hlen, ?_⟩
      intro q hqm
      rw [drawImageB_colorTransform b tex ct]
      rcases drawImageB_quads b tex ct with hcase | hcase
      · rw [hcase] at hqm
        rcases List.mem_append.mp hqm with hin | hin
        · -- an old quad survived, hence no flush happened: in particular the
          -- color-transform flush test failed, so the old transform matches
          rcases hq q hin with hn | hc
          · exact Or.inl hn
          · by_cases hct : ctFlushNeeded b.colorTransform ct = true
            · -- a flush empties the quads, contradicting survival unless the
              -- old quad is also the new one; handled by the [ct] case, so
              -- here derive the match from the failed test
              exfalso
              -- if the test succeeded the drawImage result discards b.quads
              have : (b.drawImageB (some tex) ct).quads = [ct] := by
                simp only [Brush.drawImageB, Brush.flushB]
                rw [if_pos hct]
                simp
              rw [hcase] at this
              have hnil : b.quads = [] := by
                have h2 : b.quads ++ [ct] = List.nil ++ [ct] := by simpa using this
                exact List.append_cancel_right h2
              rw [hnil] at hin
              cases hin
            · cases hcur0 : b.colorTransform with
              | none =>
                  rw [hcur0] at hc
                  exact Or.inl hc
              | some c0 =>
                  cases hctv : ct with
                  | none =>
                      exact absurd (by simp [ctFlushNeeded, hcur0, hctv]) hct
                  | some c =>
                      have hc0c : c0 = c := by
                        by_contra hne
                        exact hct (by simp [ctFlushNeeded, hcur0, hctv, hne])
                      right
                      rw [hc, hcur0, hc0c]
        · simp only [List.mem_singleton] at hin
          exact Or.inr hin
      · rw [hcase] at hqm
        simp only [List.mem_singleton] at hqm
        exact Or.inr hqm

theorem brushInv_reach {κ : Type} [DecidableEq κ] (b : Brush κ)
    (h : BrushReach b) : BrushInv b := by
  induction h with
  | init => exact ⟨by simp [brushInit], by simp [brushInit]⟩
  | draw b src ct hb ih => exact brushInv_drawImage b src ct ih
  | fill b hb ih =>
      obtain ⟨hlen, hq⟩ := ih
      refine ⟨hlen, ?_⟩
      intro q hqm
      simp only [Brush.fillRectangleB] at hqm
      rcases List.mem_append.mp hqm with hin | hin
      · exact hq q hin
      · simp only [List.mem_singleton] at hin
        exact Or.inl hin
  | flush b hb ih =>
      exact ⟨by simp [Brush.flushB], by simp [Brush.flushB]⟩

/-- A batch of `drawImage` calls, each given by a texture id and a color
transform. -/
def runCalls {κ : Type} [DecidableEq κ] (b : Brush κ)
    (calls : List (ℕ × Option κ)) : Brush κ :=
  calls.foldl (fun b c => b.drawImageB (some c.1) c.2) b

/-- A `drawImage` call that needs no flush (matching color transform, and
either a known texture or a free sampler slot) records the quad without
flushing. -/
theorem drawImageB_no_flush {κ : Type} [DecidableEq κ] (b : Brush κ)
    (tex : ℕ) (ct : Option κ)
    (hct : ctFlushNeeded b.colorTransform ct = false)
    (hno8 : tex ∈ b.textures ∨ b.textures.length ≠ 8) :
    b.drawImageB (some tex) ct =
      { textures := if tex ∈ b.textures then b.textures else b.textures ++ [tex],
        colorTransform := ct,
        quads := b.quads ++ [ct],
        flushCount := b.flushCount } := by
  simp only [Brush.drawImageB, Brush.flushB]
  rw [hct]
  by_cases hmem : tex ∈ b.textures
  · simp [hmem]
  · have h8 : ¬ b.textures.length = 8 := by
      rcases hno8 with h | h
      · exact absurd h hmem
      · exact h
    simp [hmem, h8]

/-- Running a batch of `drawImage` calls with a constant color transform
whose textures are drawn from a set of at most eight ids causes no flush
and keeps the bound textures inside that set. -/
theorem runCalls_const_ct {κ : Type} [DecidableEq κ] (c : κ) (S : Finset ℕ)
    (hS : S.card ≤ 8) :
    ∀ (calls : List ℕ) (b : Brush κ),
      (∀ tx ∈ calls, tx ∈ S) → b.textures.Nodup →
      (∀ tx ∈ b.textures, tx ∈ S) →
      (b.colorTransform = none ∨ b.colorTransform = some c) →
      (runCalls b (calls.map (fun tx => (tx, some c)))).flushCount = b.flushCount ∧
      (runCalls b (calls.map (fun tx => (tx, some c)))).textures.Nodup ∧
      (∀ tx ∈ (runCalls b (calls.map (fun tx => (tx, some c)))).textures, tx ∈ S) ∧
      ((runCalls b (calls.map (fun tx => (tx, some c)))).colorTransform = none ∨
       (runCalls b (calls.map (fun tx => (tx, some c)))).colorTransform = some c) := by
  intro calls
  induction calls with
  | nil =>
      intro b hin hnd hsub hcompat
      exact ⟨rfl, hnd, hsub, hcompat⟩
  | cons tex calls ih =>
      intro b hin hnd hsub hcompat
      have hct : ctFlushNeeded b.colorTransform (some c) = false := by
        rcases hcompat with h | h <;> simp [ctFlushNeeded, h]
      have hno8 : tex ∈ b.textures ∨ b.textures.length ≠ 8 := by
        by_cases hmem : tex ∈ b.textures
        · exact Or.inl hmem
        · right
          intro h8
          have hcard : b.textures.toFinset.card = 8 := by
            rw [List.toFinset_card_of_nodup hnd, h8]
          have hsubF : b.textures.toFinset ⊆ S := by
            intro a ha
            exact hsub a (List.mem_toFinset.mp ha)
          have heq : b.textures.toFinset = S :=
            Finset.eq_of_subset_of_card_le hsubF (by omega)
          have htin : tex ∈ b.textures.toFinset := by
            rw [heq]
            exact hin tex (List.mem_cons_self _ _)
          exact hmem (List.mem_toFinset.mp htin)
      have hstep := drawImageB_no_flush b tex (some c) hct hno8
      simp only [List.map_cons, runCalls, List.foldl_cons]
      rw [show (b.drawImageB (some tex) (some c)) =
            { textures := if tex ∈ b.textures then b.textures else b.textures ++ [tex],
              colorTransform := some c,
              quads := b.quads ++ [some c],
              flushCount := b.flushCount } from hstep]
      have happ := ih { textures := if tex ∈ b.textures then b.textures else b.textures ++ [tex],
                        colorTransform := some c,
                        quads := b.quads ++ [some c],
                        flushCount := b.flushCount }
        (fun tx htx => hin tx (List.mem_cons_of_mem _ htx))
        (by
          by_cases hmem : tex ∈ b.textures
          · simpa [hmem] using hnd
          · simp only [hmem, if_neg, ite_false]
            rw [List.nodup_append]
            refine ⟨hnd, List.nodup_singleton _, ?_⟩
            intro a ha hb
            simp only [List.mem_singleton] at hb
            exact hmem (hb ▸ ha))
        (by
          intro tx htx
          by_cases hmem : tex ∈ b.textures
          · simp only [hmem, ite_true] at htx
            exact hsub tx htx
          · simp only [hmem, ite_false] at htx
            rcases List.mem_append.mp htx with h | h
            · exact hsub tx h
            · simp only [List.mem_singleton] at h
              exact hin tx (h ▸ List.mem_cons_self _ _))
        (Or.inr rfl)
      exact happ

/-- C3: within one batch started on a fresh brush, any sequence of
`drawImage` calls referencing at most eight distinct textures with a
constant color transform triggers no flush, and the explicit flush ending
the batch is the only one; a call that requires a ninth distinct texture
flushes exactly once before its quad is recorded (the bound-texture list
restarting at that one texture); and the bound-texture list of any
reachable brush state never holds more than eight textures. -/
theorem brush_batch_sampler_accounting (κ : Type) [DecidableEq κ] :
    (∀ (c : κ) (calls : List ℕ), calls.toFinset.card ≤ 8 →
      (runCalls (brushInit κ) (calls.map (fun tx => (tx, some c)))).flushCount = 0 ∧
      ((runCalls (brushInit κ) (calls.map (fun tx => (tx, some c)))).flushB).flushCount = 1) ∧
    (∀ (b : Brush κ) (tex : ℕ) (c : κ),
      b.textures.length = 8 → tex ∉ b.textures →
      (b.colorTransform = none ∨ b.colorTransform = some c) →
      (b.drawImageB (some tex) (some c)).flushCount = b.flushCount + 1 ∧
      (b.drawImageB (some tex) (some c)).textures = [tex] ∧
      (b.drawImageB (some tex) (some c)).quads = [some c]) ∧
    (∀ b : Brush κ, BrushReach b → b.textures.length ≤ 8) := by
  refine ⟨?_, ?_, ?_⟩
  · intro c calls hcard
    have h := runCalls_const_ct c calls.toFinset hcard calls (brushInit κ)
      (fun tx htx => List.mem_toFinset.mpr htx)
      (by simp [brushInit]) (by simp [brushInit]) (Or.inl rfl)
    have h0 : (runCalls (brushInit κ) (calls.map (fun tx => (tx, some c)))).flushCount = 0 := by
      rw [h.1]
      rfl
    exact ⟨h0, by simp [Brush.flushB, h0]⟩
  · intro b tex c h8 hmem hcompat
    have hct : ctFlushNeeded b.colorTransform (some c) = false := by
      rcases hcompat with h | h <;> simp [ctFlushNeeded, h]
    refine ⟨?_, ?_, ?_⟩ <;>
      (simp only [Brush.drawImageB, Brush.flushB]
       rw [hct]
       simp [hmem, h8])
  · intro b hb
    exact (brushInv_reach b hb).1

/-- Witness for C3 on eight distinct textures with a constant transform:
no flush during the batch, and the ninth texture case at the resulting
state. -/
theorem brush_batch_sampler_accounting_witness :
    (([0, 1, 2, 3, 4, 5, 6, 7] : List ℕ).toFinset.card ≤ 8) ∧
    (runCalls (brushInit ℤ)
      (([0, 1, 2, 3, 4, 5, 6, 7] : List ℕ).map (fun tx => (tx, some (0 : ℤ))))).flushCount = 0 :=
  ⟨by decide,
   ((brush_batch_sampler_accounting ℤ).1 0 [0, 1, 2, 3, 4, 5, 6, 7] (by decide)).1⟩

/-- C4: whenever the supplied color transform of a `drawImage` call differs
from the batch's current one, the brush flushes (incrementing the flush
count and emptying the geometry) before recording the quad, so the newly
recorded quad is the only one in the new batch; consequently in every
reachable brush state all color-matrix quads of the current batch carry
one and the same color transform. -/
theorem brush_color_transform_batching (κ : Type) [DecidableEq κ] :
    (∀ (b : Brush κ) (tex : ℕ) (ct : Option κ) (c0 : κ),
      b.colorTransform = some c0 → ¬ ct = some c0 →
      (b.drawImageB (some tex) ct).flushCount = b.flushCount + 1 ∧
      (b.drawImageB (some tex) ct).quads = [ct]) ∧
    (∀ b : Brush κ, BrushReach b →
      ∀ q1 ∈ b.quads, ∀ q2 ∈ b.quads, ¬ q1 = none → ¬ q2 = none → q1 = q2) := by
  constructor
  · intro b tex ct c0 hcur hne
    have hct : ctFlushNeeded b.colorTransform ct = true := by
      cases hctv : ct with
      | none => simp [ctFlushNeeded, hcur]
      | some c =>
          have : ¬ c0 = c := by
            intro he
            exact hne (by rw [hctv, he])
          simp [ctFlushNeeded, hcur, this]
    constructor <;>
      (simp only [Brush.drawImageB, Brush.flushB]
       rw [hct]
       simp)
  · intro b hb q1 h1 q2 h2 hn1 hn2
    obtain ⟨-, hq⟩ := brushInv_reach b hb
    rcases hq q1 h1 with h | h
    · exact absurd h hn1
    · rcases hq q2 h2 with h2' | h2'
      · exact absurd h2' hn2
      · rw [h, h2']

/-- Witness for C4 at a concrete state holding color transform 0 and a call
supplying color transform 1. -/
theorem brush_color_transform_batching_witness :
    ((⟨[], some 0, [], 0⟩ : Brush ℤ).colorTransform = some 0) ∧
    (¬ (some 1 : Option ℤ) = some 0) ∧
    ((⟨[], some 0, [], 0⟩ : Brush ℤ).drawImageB (some 5) (some 1)).flushCount =
      (⟨[], some 0, [], 0⟩ : Brush ℤ).flushCount + 1 ∧
    ((⟨[], some 0, [], 0⟩ : Brush ℤ).drawImageB (some 5) (some 1)).quads = [some 1] :=
  ⟨rfl, by decide,
   (brush_color_transform_batching ℤ).1 ⟨[], some 0, [], 0⟩ 5 (some 1) 0 rfl (by decide)⟩

/-! ### The renderable tile cache (RenderableTileCache)

Scale-level selection (`getTiles`) and the scratch-surface packing
recursion (`cacheTiles`).  `MIN_CACHE_LEVELS = MAX_CACHE_LEVELS = 6`.
The JS `Math.round(Math.log(1 / transformScale) / Math.LN2)` is modelled
by the exact round-to-nearest of the base-two logarithm of a positive
rational; for a rational argument the logarithm is never exactly half-way
between two integers, so the rounding is unambiguous. -/

/-- Round to nearest of `log2 y` for a rational `y > 0`: the unique `k`
with `2 ^ (2k - 1) ≤ y ^ 2 < 2 ^ (2k + 1)`, computed from the floor
logarithm of `y * y`. -/
def roundLog2 (y : ℚ) : ℤ := Int.fdiv (Int.log 2 (y * y) + 1) 2

/-- `NumberUtilities.clamp(value, min, max) = Math.max(min, Math.min(max, value))`. -/
def clampZ (v lo hi : ℤ) : ℤ := max lo (min v hi)

/-- `getAbsoluteSourceBounds(source)`: the source bounds translated to the
origin. -/
def absBounds (b : Rect) : Rect := b.offsetR (-b.x) (-b.y)

/-- Does the source, scaled by `2 ^ level`, fit inside the scratch surface? -/
def fitsScratch (sourceBounds scratch : Rect) (level : ℤ) : Bool :=
  scratch.containsRect ((absBounds sourceBounds).scaleR ((2 : ℚ) ^ level) ((2 : ℚ) ^ level))

/-- The dynamic-source loop of `getTiles`: decrement the level until the
scaled full bounds fit the scratch surface; `assert(level >= -6)` fires
(`none`) when the level would drop below `-MIN_CACHE_LEVELS`.  The fuel is
an upper bound on iterations; `14` suffices from any start level at most
`6`. -/
def dynAdjust (sourceBounds scratch : Rect) : ℕ → ℤ → Option ℤ
  | 0, _ => none
  | fuel + 1, level =>
      if fitsScratch sourceBounds scratch level then some level
      else if level - 1 < -6 then none
      else dynAdjust sourceBounds scratch fuel (level - 1)

/-- The scale-level selection of `RenderableTileCache.getTiles`:
`level = clamp(round(log2(1 / transformScale)), -6, 6)` (or `0` when the
scale is exactly `1`), decremented for dynamic sources until the scaled
bounds fit the scratch surface, then clamped to `[-6, 0]` for
non-scalable sources.  `none` models the assertion failure of the dynamic
loop. -/
def selectLevel (transformScale : ℚ) (isDynamic isScalable : Bool)
    (sourceBounds scratch : Rect) : Option ℤ :=
  let level0 : ℤ :=
    if transformScale = 1 then 0 else clampZ (roundLog2 (1 / transformScale)) (-6) 6
  let afterDyn : Option ℤ :=
    if isDynamic then dynAdjust sourceBounds scratch 14 level0 else some level0
  afterDyn.map (fun l => if isScalable then l else clampZ l (-6) 0)

/-- Definition following the words of claim C7: the selected level is
`round(log2(1 / scale))` clamped to the range of six levels below to six
levels above native scale. -/
def claimedLevelC7 (transformScale : ℚ) : ℤ :=
  clampZ (roundLog2 (1 / transformScale)) (-6) 6

/-- C7 counterexample.  First: a non-scalable source fetched at transform
scale `1/4` (the transform handed to `getTiles` is the inverse of a 4x
zoom) selects level `0` (the non-scalable clamp to `[-6, 0]`), not the
claimed `round(log2(1/scale)) = 2` clamped to `[-6, 6]`.  Second: two
dynamic sources with identical `(scale, isDynamic, isScalable, isTileable)`
tuples but different bounds select different levels, refuting that the
level is a function of that tuple alone. -/
theorem roundLog2_four : roundLog2 4 = 2 := by
  have h16 : (4 : ℚ) * 4 = ((16 : ℕ) : ℚ) := by norm_num
  have hlog : Int.log 2 ((4 : ℚ) * 4) = 4 := by
    rw [h16, Int.log_natCast]
    have hnat : Nat.log 2 16 = 4 :=
      Nat.log_eq_of_pow_le_of_lt_pow (by norm_num) (by norm_num)
    rw [hnat]
    rfl
  rw [roundLog2, hlog]
  rfl

theorem tile_level_selection_counterexample :
    selectLevel (1 / 4) false false ⟨0, 0, 100, 100⟩ ⟨0, 0, 2048, 2048⟩ = some 0 ∧
    claimedLevelC7 (1 / 4) = 2 ∧
    selectLevel 1 true true ⟨0, 0, 4096, 4096⟩ ⟨0, 0, 2048, 2048⟩ = some (-1) ∧
    selectLevel 1 true true ⟨0, 0, 1, 1⟩ ⟨0, 0, 2048, 2048⟩ = some 0 := by
  have hinv : (1 : ℚ) / (1 / 4) = 4 := by norm_num
  have hq : ¬ (1 / 4 : ℚ) = 1 := by norm_num
  refine ⟨?_, ?_, ?_, ?_⟩
  · simp only [selectLevel, hq, if_false, ite_false, hinv, roundLog2_four]
    rfl
  · rw [claimedLevelC7, hinv, roundLog2_four]
    rfl
  · simp only [selectLevel, if_pos rfl, ite_true]
    have h0 : fitsScratch ⟨0, 0, 4096, 4096⟩ ⟨0, 0, 2048, 2048⟩ 0 = false := by
      simp only [fitsScratch, absBounds, Rect.offsetR, Rect.scaleR, Rect.containsRect]
      norm_num
    have h1 : fitsScratch ⟨0, 0, 4096, 4096⟩ ⟨0, 0, 2048, 2048⟩ (-1) = true := by
      simp only [fitsScratch, absBounds, Rect.offsetR, Rect.scaleR, Rect.containsRect]
      norm_num
    simp [dynAdjust, h0, h1]
  · simp only [selectLevel, if_pos rfl, ite_true]
    have h0 : fitsScratch ⟨0, 0, 1, 1⟩ ⟨0, 0, 2048, 2048⟩ 0 = true := by
      simp only [fitsScratch, absBounds, Rect.offsetR, Rect.scaleR, Rect.containsRect]
      norm_num
    simp [dynAdjust, h0]

theorem roundLog2_one : roundLog2 1 = 0 := by
  rw [roundLog2, one_mul, Int.log_one_right]
  rfl

/-- C7 (amended): level selection is a pure function of the transform
scale, the dynamic and scalable flags, the source bounds and the scratch
bounds (the tileable flag does not influence the level).  For non-dynamic
scalable sources the selected level is exactly the level of the claimed
formula, `round(log2(1/scale))` clamped to `[-6, 6]`; for non-dynamic
non-scalable sources that level is additionally clamped to `[-6, 0]`;
dynamic sources further decrement the level until the scaled bounds fit
the scratch surface. -/
theorem tile_level_selection_formula (ts : ℚ) (b sb : Rect) :
    selectLevel ts false true b sb = some (claimedLevelC7 ts) ∧
    selectLevel ts false false b sb = some (clampZ (claimedLevelC7 ts) (-6) 0) := by
  by_cases h : ts = 1
  · subst h
    have hc : claimedLevelC7 1 = 0 := by
      rw [claimedLevelC7]
      norm_num [roundLog2_one, clampZ]
    rw [hc]
    constructor <;> simp [selectLevel]
  · constructor <;> simp [selectLevel, claimedLevelC7, h]

/-- A raster tile: bounds in the scaled coordinate space and the level
scale it was rendered at. -/
structure TileC where
  bounds : Rect
  scale : ℚ
deriving DecidableEq, Repr

/-- `getTileBounds(tiles)`: union of the tile bounds, starting from the
empty rectangle. -/
def getTileBounds (tiles : List TileC) : Rect :=
  tiles.foldl (fun b t => b.unionR t.bounds) ⟨0, 0, 0, 0⟩

/-- The per-tile scratch-space rectangle: the tile bounds translated by the
origin of the miss-batch union. -/
def tileRegion (unionB : Rect) (t : TileC) : Rect :=
  t.bounds.offsetR (-unionB.x) (-unionB.y)

/-- The tiles of a miss batch whose scratch-space rectangle does not fit
the scratch surface and are deferred to the second pass. -/
def remainingTiles (scratch : Rect) (tiles : List TileC) : List TileC :=
  tiles.filter (fun t => ! scratch.containsRect (tileRegion (getTileBounds tiles) t))

/-- Outcome of one `cacheTiles` invocation. -/
inductive CTResult where
  | ok
  | assertFail
deriving DecidableEq, Repr

/-- `RenderableTileCache.cacheTiles`, recursion structure only: rendering
into the scratch surface and the upload callback act on external
collaborators and cannot influence the recursion.  `depth` is the
`maxRecursionDepth` parameter (default `4`); entering with a non-positive
depth fires `assert(maxRecursionDepth > 0)` (`some .assertFail`, the JS
exception aborting the whole call).  `fuel` bounds the number of nested
invocations the model is willing to evaluate; `none` means the fuel was
exhausted, and the termination theorem shows fuel `depth + 1` always
suffices. -/
def cacheTilesF (scratch : Rect) : ℕ → List TileC → ℤ → Option CTResult
  | 0, _, _ => none
  | fuel + 1, tiles, depth =>
      if depth ≤ 0 then some CTResult.assertFail
      else
        let rem := remainingTiles scratch tiles
        if rem.isEmpty then some CTResult.ok
        else if 2 ≤ rem.length then
          match cacheTilesF scratch fuel (rem.take (rem.length / 2)) (depth - 1) with
          | none => none
          | some CTResult.assertFail => some CTResult.assertFail
          | some CTResult.ok =>
              cacheTilesF scratch fuel (rem.drop (rem.length / 2)) (depth - 1)
        else cacheTilesF scratch fuel rem (depth - 1)

/-- C9: `cacheTiles` always terminates.  Every recursive call passes a
recursion budget smaller by one, so a fuel of `depth + 1` nested
invocations always suffices (the evaluation never runs out of fuel), and a
call entered with an exhausted budget faults with the assertion instead of
recursing. -/
theorem tile_cache_recursion_terminates (scratch : Rect) :
    (∀ (fuel : ℕ) (tiles : List TileC) (depth : ℤ), depth.toNat < fuel →
        ¬ cacheTilesF scratch fuel tiles depth = none) ∧
    (∀ (fuel : ℕ) (tiles : List TileC),
        cacheTilesF scratch (fuel + 1) tiles 0 = some CTResult.assertFail) := by
  constructor
  · intro fuel
    induction fuel with
    | zero =>
        intro tiles depth h
        omega
    | succ fuel ih =>
        intro tiles depth h
        simp only [cacheTilesF]
        by_cases hd : depth ≤ 0
        · simp [hd]
        · rw [if_neg hd]
          have hrec : (depth - 1).toNat < fuel := by omega
          by_cases hempty : (remainingTiles scratch tiles).isEmpty = true
          · simp [hempty]
          · rw [if_neg hempty]
            by_cases h2 : 2 ≤ (remainingTiles scratch tiles).length
            · rw [if_pos h2]
              have ha := ih (List.take ((remainingTiles scratch tiles).length / 2)
                (remainingTiles scratch tiles)) (depth - 1) hrec
              have hb := ih (List.drop ((remainingTiles scratch tiles).length / 2)
                (remainingTiles scratch tiles)) (depth - 1) hrec
              cases hc : cacheTilesF scratch fuel
                  (List.take ((remainingTiles scratch tiles).length / 2)
                    (remainingTiles scratch tiles)) (depth - 1) with
              | none => exact absurd hc ha
              | some r =>
                  cases r with
                  | ok => simpa using hb
                  | assertFail => simp
            · rw [if_neg h2]
              exact ih (remainingTiles scratch tiles) (depth - 1) hrec
  · intro fuel tiles
    simp [cacheTilesF]

/-- Witness for C9: a single oversized tile never fits, the miss list never
shrinks, and the recursion still terminates inside its fuel, ending in the
assertion fault. -/
theorem tile_cache_recursion_terminates_witness :
    ((4 : ℤ).toNat < 5) ∧
    ¬ cacheTilesF ⟨0, 0, 10, 10⟩ 5 [⟨⟨0, 0, 100, 100⟩, 1⟩] 4 = none :=
  ⟨by decide,
   (tile_cache_recursion_terminates ⟨0, 0, 10, 10⟩).1 5 [⟨⟨0, 0, 100, 100⟩, 1⟩] 4 (by decide)⟩

/-! ### The traversal engine (Frame.visit) and point hit-testing

For the traversal claims the tree is encoded as a rose tree (a frame is a
leaf or a container with an ordered child list), carrying the fields the
iterative stack walk of `Frame.visit` reads: local matrix, flags, clip
count and bounds (`getBounds()` is abstract in the source, overridden per
concrete node kind, so each node carries its bounds as data).  The module
option `disableClipping` is at its default (`false`). -/

/-- Per-node data read by the traversal. -/
structure VData where
  vid : ℕ
  matrix : M2
  flags : Flags
  clip : ℤ
  bounds : Rect

/-- A frame for traversal purposes: `leaf` is a plain frame, `cont` is a
`FrameContainer` with its ordered children. -/
inductive VFrame where
  | leaf (d : VData)
  | cont (d : VData) (children : List VFrame)

def VFrame.vdata : VFrame → VData
  | .leaf d => d
  | .cont d _ => d

/-- The visitor verdicts `VisitorFlags.Continue / Stop / Skip`. -/
inductive VisitResult where
  | vcontinue
  | vstop
  | vskip

/-- One entry of the explicit traversal stack: the frame together with its
pushed accumulated transform and accumulated flags. -/
structure VEntry where
  frame : VFrame
  transform : M2
  flags : Flags

/-- Mask `FrameFlags.EnterClip`. -/
def enterClipMask : Flags := { enterClip := true }

/-- Mask `FrameFlags.LeaveClip`. -/
def leaveClipMask : Flags := { leaveClip := true }

/-- Modelled from the spec: `FrameContainer.gatherLeaveClipEvents` is
absent from the sources.  Per the spec, the clip count of a child is the
number of following siblings its shape clips, and the traversal interleaves
a synthetic leave-clip entry after the last clipped sibling; so a child at
index `j` with clip count `c ≥ 0` registers a leave event at child index
`j + c`.  This returns the events registered at index `i`, in registration
order. -/
def leaveClipEventsAt (children : List VFrame) (i : ℕ) : List VFrame :=
  (children.enum.filter (fun jc =>
      decide ((0 : ℤ) ≤ jc.2.vdata.clip) &&
      decide ((jc.1 : ℤ) + jc.2.vdata.clip = (i : ℤ)))).map (fun jc => jc.2)

/-- The stack block pushed for a container's children with clip processing,
written directly in pop order: for each child index in ascending order, the
child entry (with the enter-clip flag attached when its clip count is
non-negative) followed by the leave-clip events registered at that index in
reverse registration order (the source pushes them with `shift()` before
the child, so they pop after it, last registered first). -/
def clipPopBlocks (children : List VFrame) (transform : M2) (flags : Flags) :
    List VEntry :=
  (children.enum.map (fun jc =>
    ({ frame := jc.2, transform := M2.mul transform jc.2.vdata.matrix,
       flags := if (0 : ℤ) ≤ jc.2.vdata.clip then Flags.or flags enterClipMask
                else flags } : VEntry) ::
    ((leaveClipEventsAt children jc.1).reverse.map (fun cf =>
      ({ frame := cf, transform := M2.mul transform cf.vdata.matrix,
         flags := leaveClipMask } : VEntry))))).join

/-- The stack block pushed without clip processing, in pop order: children
in index order by default (a back-to-front walk), reversed when the
front-to-back visitor flag is requested. -/
def plainPopList (frontToBack : Bool) (children : List VFrame)
    (transform : M2) (flags : Flags) : List VEntry :=
  (if frontToBack then children.reverse else children).map
    (fun c => { frame := c, transform := M2.mul transform c.vdata.matrix,
                flags := flags })

/-- The iterative stack loop of `Frame.visit`, threading a visitor state of
type `σ`.  The visitor receives the frame, its accumulated transform, and
the OR of the pushed flags with the frame's own flags.  `fuel` bounds the
number of pops; it is chosen large enough for each concrete input. -/
def visitLoop {σ : Type} (visitor : σ → VFrame → M2 → Flags → σ × VisitResult)
    (useClips frontToBack : Bool) : ℕ → List VEntry → σ → σ
  | 0, _, s => s
  | _ + 1, [], s => s
  | fuel + 1, e :: rest, s =>
      let fl := Flags.or e.flags e.frame.vdata.flags
      let r := visitor s e.frame e.transform fl
      match r.2 with
      | .vstop => r.1
      | .vskip => visitLoop visitor useClips frontToBack fuel rest r.1
      | .vcontinue =>
          match e.frame with
          | .leaf _ => visitLoop visitor useClips frontToBack fuel rest r.1
          | .cont _ children =>
              visitLoop visitor useClips frontToBack fuel
                ((if useClips then clipPopBlocks children e.transform fl
                  else plainPopList frontToBack children e.transform fl) ++ rest) r.1

/-- `Frame.visit(visitor, transform, flags, visitorFlags)`. -/
def visitM {σ : Type} (visitor : σ → VFrame → M2 → Flags → σ × VisitResult)
    (root : VFrame) (baseTransform : M2) (baseFlags : Flags)
    (useClips frontToBack : Bool) (fuel : ℕ) (s0 : σ) : σ :=
  visitLoop visitor useClips frontToBack fuel [⟨root, baseTransform, baseFlags⟩] s0

/-- `Frame.queryFramesByPoint(query, multiple, includeFrameContainers)`:
a default-order visit from the frame with the identity base transform,
collecting ids of hit frames, then reversing the collected list. -/
def queryFramesByPointM (root : VFrame) (query : ℚ × ℚ)
    (multiple includeFrameContainers : Bool) (fuel : ℕ) : List ℕ :=
  (visitM (fun frames f transform fl =>
      if fl.ignoreQuery then (frames, VisitResult.vskip)
      else
        if f.vdata.bounds.containsPoint (transform.inverse.transformPoint query) then
          match f with
          | .cont _ _ =>
              if includeFrameContainers then
                if multiple then (frames ++ [f.vdata.vid], VisitResult.vcontinue)
                else (frames ++ [f.vdata.vid], VisitResult.vstop)
              else (frames, VisitResult.vcontinue)
          | .leaf _ =>
              if multiple then (frames ++ [f.vdata.vid], VisitResult.vcontinue)
              else (frames ++ [f.vdata.vid], VisitResult.vstop)
        else (frames, VisitResult.vskip))
    root M2.idm Flags.empty false false fuel ([] : List ℕ)).reverse

/-- Two overlapping leaves under one container, all with identity local
transforms; leaf 1 is painted first (backmost), leaf 2 on top of it. -/
def overlapTree : VFrame :=
  .cont ⟨0, M2.idm, initFlags, -1, ⟨0, 0, 10, 10⟩⟩
    [.leaf ⟨1, M2.idm, initFlags, -1, ⟨0, 0, 10, 10⟩⟩,
     .leaf ⟨2, M2.idm, initFlags, -1, ⟨0, 0, 10, 10⟩⟩]

/-- C5: evaluation of the code at the failing input.  The point `(5,5)`
lies strictly inside both leaves.  With `multiple = true` the full hit list
is `[2, 1]` front to back, so the topmost hit frame is leaf 2; but with
`multiple = false` the walk (which visits back to front) stops at the first
hit it encounters and returns `[1]` — the bottommost frame, not the
topmost one required by the claim and by the method's own documentation. -/
theorem query_point_single_returns_bottommost :
    queryFramesByPointM overlapTree (5, 5) false false 10 = [1] ∧
    queryFramesByPointM overlapTree (5, 5) true false 10 = [2, 1] := by
  constructor <;>
    norm_num [queryFramesByPointM, visitM, visitLoop, plainPopList,
      Rect.containsPoint, M2.inverse, M2.det, M2.transformPoint, M2.mul,
      M2.idm, Flags.or, Flags.empty, initFlags, VFrame.vdata, overlapTree]

/-- Visitor that records, for each visited entry, the frame id together
with the enter-clip and leave-clip bits of the flags the callback
receives. -/
def traceVisitor : List (ℕ × Bool × Bool) → VFrame → M2 → Flags →
    (List (ℕ × Bool × Bool)) × VisitResult :=
  fun s f _ fl =>
    (s ++ [(f.vdata.vid, fl.enterClip, fl.leaveClip)], VisitResult.vcontinue)

/-- A container (id 0) whose first child (id 1) has clip count 2, followed
by two sibling leaves (ids 2 and 3). -/
def clipTree : VFrame :=
  .cont ⟨0, M2.idm, initFlags, -1, ⟨0, 0, 1, 1⟩⟩
    [.leaf ⟨1, M2.idm, initFlags, 2, ⟨0, 0, 1, 1⟩⟩,
     .leaf ⟨2, M2.idm, initFlags, -1, ⟨0, 0, 1, 1⟩⟩,
     .leaf ⟨3, M2.idm, initFlags, -1, ⟨0, 0, 1, 1⟩⟩]

/-- The visitation sequence of the clip scenario with clip processing
enabled. -/
def clipTrace : List (ℕ × Bool × Bool) :=
  visitM traceVisitor clipTree M2.idm Flags.empty true false 20 []

/-- C6 counterexample: in the clip-count-2 scenario the two siblings (ids 2
and 3, visited as the third and fourth entries) receive flags with the
enter-clip bit clear — the enter-clip flag is attached to the clipping
child's own entry (id 1, second entry), not to its siblings — refuting the
claim that both siblings' enter-clip flag is set. -/
theorem clip_scenario_siblings_no_enterclip :
    clipTrace.get? 2 = some (2, false, false) ∧
    clipTrace.get? 3 = some (3, false, false) ∧
    clipTrace.get? 1 = some (1, true, false) ∧
    clipTrace.length = 5 := by
  have h : clipTrace = [(0, false, false), (1, true, false), (2, false, false),
      (3, false, false), (1, false, true)] := by
    norm_num [clipTrace, visitM, visitLoop, clipPopBlocks, leaveClipEventsAt,
      plainPopList, traceVisitor, clipTree, VFrame.vdata, List.enum,
      List.enumFrom, M2.mul, M2.idm, Flags.or, Flags.empty, initFlags,
      enterClipMask, leaveClipMask]
  rw [h]
  exact ⟨rfl, rfl, rfl, rfl⟩

/-- C6 (amended): in the clip scenario (a container holding a node with
clip count 2 followed by two sibling leaves, traversed with clip
processing), the clipping node's own entry carries the enter-clip flag,
the two siblings' entries do not, and a synthetic leave-clip entry for the
clipping node is visited after the two siblings. -/
theorem clip_scenario_trace :
    clipTrace = [(0, false, false), (1, true, false), (2, false, false),
      (3, false, false), (1, false, true)] := by
  norm_num [clipTrace, visitM, visitLoop, clipPopBlocks, leaveClipEventsAt,
    plainPopList, traceVisitor, clipTree, VFrame.vdata, List.enum,
    List.enumFrom, M2.mul, M2.idm, Flags.or, Flags.empty, initFlags,
    enterClipMask, leaveClipMask]

end ShumwayGFX
